import Mathlib

/-!
Verification development for the partitioned time-series store of the
aiseed-tool repository.

The embedding covers:
* `src/server/storage/parquet_store.py` — monthly Parquet partitions:
  `append_records`, `read_range` (and the 28-day month-enumeration loop
  shared with `read_recent`).
* `src/climate-server/storage/netcdf_store.py` — one NetCDF file per
  location: `save_daily` (xarray `combine_first` merge), `load_range`.

Timestamps are modelled as validated proleptic-Gregorian UTC instants
(year/month/day plus second-of-day); pandas/xarray timestamp order and
equality coincide with the order and equality of these instants.  Numeric
field values are modelled as `Option Int` ("missing" = `none`, matching
NaN/None; the claims under study do not depend on the value domain).
-/

namespace AiseedStore

/-- Gregorian leap-year test, as used by Python `datetime`. -/
def isLeap (y : Nat) : Bool :=
  (y % 4 == 0 && y % 100 != 0) || y % 400 == 0

/-- Number of days in month `m` (1..12) of year `y`. -/
def daysInMonth (y m : Nat) : Nat :=
  if m = 2 then (if isLeap y then 29 else 28)
  else if m = 4 ∨ m = 6 ∨ m = 9 ∨ m = 11 then 30 else 31

theorem daysInMonth_ge (y m : Nat) : 28 ≤ daysInMonth y m := by
  unfold daysInMonth
  split_ifs <;> omega

theorem daysInMonth_le (y m : Nat) : daysInMonth y m ≤ 31 := by
  unfold daysInMonth
  split_ifs <;> omega

/-- A UTC instant: calendar date plus second-of-day, the shape in which
pandas/`datetime` timestamps enter both stores. -/
structure DateTime where
  year : Nat
  month : Nat
  day : Nat
  sec : Nat
deriving DecidableEq

/-- Calendar validity: month 1..12, day within the month, sec within a day. -/
def DateTime.Valid (t : DateTime) : Prop :=
  1 ≤ t.month ∧ t.month ≤ 12 ∧ 1 ≤ t.day ∧
    t.day ≤ daysInMonth t.year t.month ∧ t.sec < 86400

instance (t : DateTime) : Decidable t.Valid := by
  unfold DateTime.Valid; infer_instance

/-- A valid UTC timestamp. -/
def TS : Type := {t : DateTime // t.Valid}

instance : DecidableEq TS := Subtype.instDecidableEq

/-- Mixed-radix linearisation of a timestamp; on valid timestamps it is
strictly monotone for chronological order, so pandas timestamp comparison
is comparison of keys. -/
def TS.key (t : TS) : Nat :=
  ((t.val.year * 13 + t.val.month) * 32 + t.val.day) * 86400 + t.val.sec

/-- Chronological order on timestamps (pandas `<=` on `Timestamp`). -/
def tsLe (a b : TS) : Prop := a.key ≤ b.key

instance : DecidableRel tsLe := fun a b =>
  inferInstanceAs (Decidable (a.key ≤ b.key))

instance : IsTotal TS tsLe := ⟨fun a b => Nat.le_total a.key b.key⟩

instance : IsTrans TS tsLe := ⟨fun _ _ _ h h' => Nat.le_trans h h'⟩

theorem TS.valid_bounds (t : TS) :
    1 ≤ t.val.month ∧ t.val.month ≤ 12 ∧ 1 ≤ t.val.day ∧
      t.val.day ≤ 31 ∧ t.val.sec < 86400 := by
  obtain ⟨h1, h2, h3, h4, h5⟩ := t.prop
  exact ⟨h1, h2, h3, Nat.le_trans h4 (daysInMonth_le _ _), h5⟩

/-- Two valid timestamps with the same key are equal (the key is injective
on valid instants). -/
theorem TS.key_inj {a b : TS} (h : a.key = b.key) : a = b := by
  have ba := a.valid_bounds
  have bb := b.valid_bounds
  apply Subtype.ext
  obtain ⟨⟨y1, m1, d1, s1⟩, p1⟩ := a
  obtain ⟨⟨y2, m2, d2, s2⟩, p2⟩ := b
  simp only [TS.key] at h ba bb
  have hy : y1 = y2 := by omega
  have hm : m1 = m2 := by omega
  have hd : d1 = d2 := by omega
  have hs : s1 = s2 := by omega
  simp [hy, hm, hd, hs]

/-- Linear month index: `12 * year + (month - 1)`; two timestamps share a
`YYYY-MM` partition key exactly when their indices agree. -/
def monthIdx (t : TS) : Nat := 12 * t.val.year + t.val.month - 1

/-- `monthIdx` is monotone for chronological order. -/
theorem monthIdx_mono {a b : TS} (h : tsLe a b) : monthIdx a ≤ monthIdx b := by
  obtain ⟨m1a, m2a, d1a, d2a, sa⟩ := a.valid_bounds
  obtain ⟨m1b, m2b, d1b, d2b, sb⟩ := b.valid_bounds
  unfold tsLe TS.key at h
  unfold monthIdx
  omega

/-- A strictly earlier calendar month means a strictly smaller key,
whatever the day/sec components are. -/
theorem key_lt_of_monthIdx_lt {a b : TS} (h : monthIdx a < monthIdx b) :
    a.key < b.key := by
  obtain ⟨m1a, m2a, d1a, d2a, sa⟩ := a.valid_bounds
  obtain ⟨m1b, m2b, d1b, d2b, sb⟩ := b.valid_bounds
  unfold monthIdx at h
  unfold TS.key
  omega

/-- Successor day (the effect of advancing a timestamp by one calendar
day, as `pd.Timedelta(days=1)` does). -/
def DateTime.nextDay (t : DateTime) : DateTime :=
  if t.day < daysInMonth t.year t.month then ⟨t.year, t.month, t.day + 1, t.sec⟩
  else if t.month < 12 then ⟨t.year, t.month + 1, 1, t.sec⟩
  else ⟨t.year + 1, 1, 1, t.sec⟩

theorem DateTime.nextDay_valid {t : DateTime} (h : t.Valid) : t.nextDay.Valid := by
  obtain ⟨y, m, d, s⟩ := t
  simp only [DateTime.Valid] at h ⊢
  simp only [DateTime.nextDay]
  have g1 := daysInMonth_ge y (m + 1)
  have g2 := daysInMonth_ge (y + 1) 1
  split_ifs with hd hm <;> simp_all <;> omega

def TS.nextDay (t : TS) : TS := ⟨t.val.nextDay, DateTime.nextDay_valid t.prop⟩

/-- Advance a timestamp by `n` days (`t + pd.Timedelta(days=n)`). -/
def TS.addDays (n : Nat) (t : TS) : TS :=
  match n with
  | 0 => t
  | n + 1 => TS.addDays n t.nextDay

theorem TS.addDays_add (p q : Nat) (t : TS) :
    TS.addDays (p + q) t = TS.addDays q (TS.addDays p t) := by
  induction p generalizing t with
  | zero => simp [TS.addDays]
  | succ p ih =>
      have : p + 1 + q = (p + q) + 1 := by omega
      rw [this]
      show TS.addDays (p + q) t.nextDay = _
      rw [ih]
      rfl

/-- Days in all years before year `y` (proleptic Gregorian). -/
def daysBeforeYear : Nat → Nat
  | 0 => 0
  | y + 1 => daysBeforeYear y + (if isLeap y then 366 else 365)

/-- Days in the first `m` months of year `y`. -/
def monthsCum (y : Nat) : Nat → Nat
  | 0 => 0
  | m + 1 => monthsCum y m + daysInMonth y (m + 1)

/-- Linear day number of a timestamp's date. -/
def dayIndex (t : TS) : Nat :=
  daysBeforeYear t.val.year + monthsCum t.val.year (t.val.month - 1) + t.val.day

theorem monthsCum_mono (y : Nat) {m m' : Nat} (h : m ≤ m') :
    monthsCum y m ≤ monthsCum y m' := by
  induction m' with
  | zero =>
      have hm : m = 0 := by omega
      subst hm; exact Nat.le_refl _
  | succ k ih =>
      rcases Nat.lt_or_ge m (k + 1) with h' | h'
      · calc monthsCum y m ≤ monthsCum y k := ih (by omega)
          _ ≤ _ := by simp [monthsCum]
      · have : m = k + 1 := by omega
        subst this; exact Nat.le_refl _

theorem monthsCum_year (y : Nat) :
    monthsCum y 12 = 365 + (if isLeap y then 1 else 0) := by
  rcases hl : isLeap y <;>
    simp [monthsCum, daysInMonth, hl]

theorem daysBeforeYear_mono {y y' : Nat} (h : y ≤ y') :
    daysBeforeYear y ≤ daysBeforeYear y' := by
  induction y' with
  | zero =>
      have hy : y = 0 := by omega
      subst hy; exact Nat.le_refl _
  | succ k ih =>
      rcases Nat.lt_or_ge y (k + 1) with h' | h'
      · calc daysBeforeYear y ≤ daysBeforeYear k := ih (by omega)
          _ ≤ _ := by simp [daysBeforeYear]
      · have : y = k + 1 := by omega
        subst this; exact Nat.le_refl _

theorem dayIndex_nextDay (t : TS) : dayIndex t.nextDay = dayIndex t + 1 := by
  have hb := t.prop
  obtain ⟨⟨y, m, d, s⟩, p⟩ := t
  simp only [DateTime.Valid] at hb
  simp only [dayIndex, TS.nextDay, DateTime.nextDay]
  obtain ⟨h1, h2, h3, h4, h5⟩ := hb
  split_ifs with hd hm
  · simp; omega
  · obtain ⟨k, rfl⟩ : ∃ k, m = k + 1 := ⟨m - 1, by omega⟩
    simp only [monthsCum]
    simp
    have : d = daysInMonth y (k + 1) := by simp_all; omega
    omega
  · have hm12 : m = 12 := by simp_all; omega
    subst hm12
    have : d = daysInMonth y 12 := by simp_all; omega
    have hc := monthsCum_year y
    have h11 : monthsCum y 12 = monthsCum y 11 + daysInMonth y 12 := by
      simp [monthsCum]
    simp only [daysBeforeYear]
    simp
    rcases hl : isLeap y <;> simp [hl, monthsCum] at hc ⊢ <;> omega

theorem dayIndex_addDays (n : Nat) (t : TS) :
    dayIndex (TS.addDays n t) = dayIndex t + n := by
  induction n generalizing t with
  | zero => rfl
  | succ k ih =>
      show dayIndex (TS.addDays k t.nextDay) = _
      rw [ih, dayIndex_nextDay]
      omega

theorem dayIndex_le_of_key_le {a b : TS} (h : a.key ≤ b.key) :
    dayIndex a ≤ dayIndex b := by
  have ba := a.prop
  have bb := b.prop
  obtain ⟨⟨y1, m1, d1, s1⟩, p1⟩ := a
  obtain ⟨⟨y2, m2, d2, s2⟩, p2⟩ := b
  simp only [DateTime.Valid] at ba bb
  simp only [TS.key] at h
  simp only [dayIndex]
  obtain ⟨a1, a2, a3, a4, a5⟩ := ba
  obtain ⟨b1, b2, b3, b4, b5⟩ := bb
  have hd1 : d1 ≤ 31 := Nat.le_trans a4 (daysInMonth_le _ _)
  have hd2 : d2 ≤ 31 := Nat.le_trans b4 (daysInMonth_le _ _)
  rcases Nat.lt_or_ge y1 y2 with hy | hy
  · -- strictly earlier year: bound a's index by the start of year y1+1
    have e1 : monthsCum y1 (m1 - 1) + d1 ≤ monthsCum y1 m1 := by
      obtain ⟨k, rfl⟩ : ∃ k, m1 = k + 1 := ⟨m1 - 1, by omega⟩
      simp only [monthsCum]
      simp
      omega
    have e2 : monthsCum y1 m1 ≤ monthsCum y1 12 := monthsCum_mono _ (by omega)
    have e3 : daysBeforeYear (y1 + 1) ≤ daysBeforeYear y2 := daysBeforeYear_mono (by omega)
    have e4 : daysBeforeYear (y1 + 1) =
        daysBeforeYear y1 + (if isLeap y1 then 366 else 365) := by
      simp [daysBeforeYear]
    have e5 := monthsCum_year y1
    rcases hl : isLeap y1 <;> simp [hl] at e4 e5 <;> omega
  · have hy' : y1 = y2 := by omega
    subst hy'
    rcases Nat.lt_or_ge m1 m2 with hm | hm
    · have e1 : monthsCum y1 (m1 - 1) + d1 ≤ monthsCum y1 m1 := by
        obtain ⟨k, rfl⟩ : ∃ k, m1 = k + 1 := ⟨m1 - 1, by omega⟩
        simp only [monthsCum]
        simp
        omega
      have e2 : monthsCum y1 m1 ≤ monthsCum y1 (m2 - 1) := monthsCum_mono _ (by omega)
      omega
    · have hm' : m1 = m2 := by omega
      subst hm'
      have : d1 ≤ d2 := by omega
      omega

/-- Advancing by at most a month's remaining days stays inside the month. -/
theorem addDays_in_month (n : Nat) :
    ∀ (t : TS), t.val.day + n ≤ daysInMonth t.val.year t.val.month →
      (TS.addDays n t).val =
        ⟨t.val.year, t.val.month, t.val.day + n, t.val.sec⟩ := by
  induction n with
  | zero => intro t _; rfl
  | succ k ih =>
      intro t h
      have hb := t.prop
      obtain ⟨h1, h2, h3, h4, h5⟩ := hb
      have hd : t.val.day < daysInMonth t.val.year t.val.month := by omega
      have hnext : (TS.nextDay t).val =
          ⟨t.val.year, t.val.month, t.val.day + 1, t.val.sec⟩ := by
        simp [TS.nextDay, DateTime.nextDay, hd]
      show (TS.addDays k t.nextDay).val = _
      rw [ih t.nextDay (by rw [hnext]; simp; omega), hnext]
      simp
      omega

theorem key_le_nextDay (t : TS) : t.key ≤ t.nextDay.key := by
  have hb := t.valid_bounds
  obtain ⟨⟨y, m, d, s⟩, p⟩ := t
  simp only at hb
  simp only [TS.key, TS.nextDay, DateTime.nextDay]
  split_ifs <;> simp <;> omega

theorem key_le_addDays (n : Nat) (t : TS) : t.key ≤ (TS.addDays n t).key := by
  induction n generalizing t with
  | zero => exact Nat.le_refl _
  | succ k ih =>
      exact Nat.le_trans (key_le_nextDay t) (ih t.nextDay)

/-- Stepping 28 days forward crosses at most one month boundary: the
`current += pd.Timedelta(days=28)` loop cannot skip a calendar month. -/
theorem monthIdx_addDays28 (t : TS) : monthIdx (TS.addDays 28 t) ≤ monthIdx t + 1 := by
  have hb := t.prop
  obtain ⟨h1, h2, h3, h4, h5⟩ := hb
  by_cases hin : t.val.day + 28 ≤ daysInMonth t.val.year t.val.month
  · have := addDays_in_month 28 t hin
    have : monthIdx (TS.addDays 28 t) = monthIdx t := by
      simp [monthIdx, this]
    omega
  · -- the step crosses into the next month and stays there
    set a := daysInMonth t.val.year t.val.month - t.val.day with ha
    have hale : a ≤ 27 := by omega
    have hdim : t.val.day + a = daysInMonth t.val.year t.val.month := by omega
    obtain ⟨b, hb28⟩ : ∃ b, 28 - a = b + 1 := ⟨27 - a, by omega⟩
    have hdecomp : TS.addDays 28 t = TS.addDays b (TS.addDays a t).nextDay := by
      have h28 : (28 : Nat) = a + (b + 1) := by omega
      rw [h28, TS.addDays_add]
      rfl
    have hu : (TS.addDays a t).val =
        ⟨t.val.year, t.val.month, t.val.day + a, t.val.sec⟩ :=
      addDays_in_month a t (by omega)
    have hnotlt : ¬ (t.val.day + a < daysInMonth t.val.year t.val.month) := by omega
    by_cases hm : t.val.month < 12
    · have hnx : ((TS.addDays a t).nextDay).val =
          ⟨t.val.year, t.val.month + 1, 1, t.val.sec⟩ := by
        simp [TS.nextDay, DateTime.nextDay, hu, hnotlt, hm]
      have hfin := addDays_in_month b ((TS.addDays a t).nextDay)
        (by rw [hnx]; simp; have := daysInMonth_ge t.val.year (t.val.month + 1); omega)
      rw [hdecomp]
      simp [monthIdx, hfin, hnx]
      omega
    · have hnx : ((TS.addDays a t).nextDay).val =
          ⟨t.val.year + 1, 1, 1, t.val.sec⟩ := by
        simp [TS.nextDay, DateTime.nextDay, hu, hnotlt, hm]
      have hfin := addDays_in_month b ((TS.addDays a t).nextDay)
        (by rw [hnx]; simp; have := daysInMonth_ge (t.val.year + 1) 1; omega)
      rw [hdecomp]
      simp [monthIdx, hfin, hnx]
      omega

/-- The months-collection loop shared by `read_range` and `read_recent`:
starting at `cur`, record the month key and advance 28 days while the
cursor has not passed `fin`. -/
def collectMonths (cur fin : TS) : List Nat :=
  if cur.key ≤ fin.key then monthIdx cur :: collectMonths (TS.addDays 28 cur) fin
  else []
termination_by dayIndex fin + 1 - dayIndex cur
decreasing_by
  rename_i h
  have h1 := dayIndex_addDays 28 cur
  have h2 := dayIndex_le_of_key_le h
  omega

/-- The month keys touched by a `[start, end]` window in `read_range`:
the loop's months plus the month of `end`, which the source adds
separately (`months.add(_month_key(end_ts...))`). -/
def monthsFor (s e : TS) : List Nat := collectMonths s e ++ [monthIdx e]

/-! ## Parquet store (src/server/storage/parquet_store.py) -/

/-- A stored row: parsed UTC timestamp plus the named optional numeric
fields of the non-time columns. -/
structure SRow where
  ts : TS
  fields : List (String × Option Int)
deriving DecidableEq

/-- The state of the time column in one raw input record: the key may be
absent from the dict, present but None, present but unparsable, or a
parsable timestamp. -/
inductive TField where
  | absent : TField
  | nullv : TField
  | bad : TField
  | good : TS → TField
deriving DecidableEq

/-- One raw record handed to `append_records`. -/
structure RawRecord where
  ts : TField
  fields : List (String × Option Int)
deriving DecidableEq

abbrev Part := List SRow

/-- The monthly files of one storage directory: month key ↦ partition. -/
abbrev Files := List (Nat × Part)

/-- A storage directory that may not exist yet. -/
abbrev Dir := Option Files

/-- Read the file named by month key `μ`, if it exists. -/
def getFile (fs : Files) (μ : Nat) : Option Part :=
  match fs with
  | [] => none
  | e :: rest => if e.1 = μ then some e.2 else getFile rest μ

/-- Replace or create the file named by month key `μ`. -/
def updateFile (fs : Files) (μ : Nat) (p : Part) : Files :=
  match fs with
  | [] => [(μ, p)]
  | e :: rest => if e.1 = μ then (μ, p) :: rest else e :: updateFile rest μ p

/-- Row order used by `sort_values(time_col)`. -/
def rowLe (a b : SRow) : Prop := tsLe a.ts b.ts

instance : DecidableRel rowLe := fun a b =>
  inferInstanceAs (Decidable (a.ts.key ≤ b.ts.key))

instance : IsTotal SRow rowLe := ⟨fun a b => Nat.le_total a.ts.key b.ts.key⟩

instance : IsTrans SRow rowLe := ⟨fun _ _ _ h h' => Nat.le_trans h h'⟩

def sortRows (p : Part) : Part := List.insertionSort rowLe p

/-- The rows whose time value parsed (`NaT` rows are dropped by the
`groupby`, so only these ever reach a partition). -/
def goodRows (records : List RawRecord) : List SRow :=
  records.filterMap (fun r =>
    match r.ts with
    | TField.good t => some ⟨t, r.fields⟩
    | _ => none)

def natLe (a b : Nat) : Prop := a ≤ b

instance : DecidableRel natLe := fun a b => inferInstanceAs (Decidable (a ≤ b))

instance : IsTotal Nat natLe := ⟨Nat.le_total⟩

instance : IsTrans Nat natLe := ⟨fun _ _ _ h h' => Nat.le_trans h h'⟩

/-- The distinct month keys of a batch, in ascending order (pandas
`groupby` iterates its groups in sorted key order). -/
def batchMonths (rows : List SRow) : List Nat :=
  List.insertionSort natLe ((rows.map (fun r => monthIdx r.ts)).dedup)

def monthGroup (rows : List SRow) (μ : Nat) : List SRow :=
  rows.filter (fun r => decide (monthIdx r.ts = μ))

/-- One iteration of the `for month_key, group in ...` loop of
`append_records`: read the existing file if present, drop incoming rows
whose timestamp already exists in it (the existing row wins), skip the
write when nothing remains, otherwise write the sorted concatenation
directly to the canonical path; the returned counter grows by the full
group size whenever a write happens. -/
def mergeMonth (fs : Files) (rows : List SRow) (μ : Nat) : Files × Nat :=
  let group := monthGroup rows μ
  match getFile fs μ with
  | some existing =>
      let fresh := group.filter (fun r => !(existing.any (fun x => decide (x.ts = r.ts))))
      if fresh.isEmpty then (fs, 0)
      else (updateFile fs μ (sortRows (existing ++ fresh)), group.length)
  | none => (updateFile fs μ (sortRows group), group.length)

def appendLoop (fs : Files) (ms : List Nat) (rows : List SRow) : Files × Nat :=
  match ms with
  | [] => (fs, 0)
  | μ :: rest =>
      let r1 := mergeMonth fs rows μ
      let r2 := appendLoop r1.1 rest rows
      (r2.1, r1.2 + r2.2)

inductive AppendError where
  | noTimeColumn : AppendError
  | badTimestamp : AppendError
deriving DecidableEq

/-- `append_records(base_dir, records)`: final directory state plus the
returned count or raised error.  Mirrors the source: an empty batch
returns 0 without touching the directory; otherwise the directory is
created first, then the time column is located (ValueError when no record
carries a time key), timestamps are parsed (`pd.to_datetime` raises if any
present time value is unparsable, while absent/None values become NaT and
those rows are silently dropped by the month `groupby`), and each month
group is merged into its file. -/
def appendRecords (d : Dir) (records : List RawRecord) : Dir × Except AppendError Nat :=
  if records.isEmpty then (d, Except.ok 0)
  else
    let fs := d.getD []
    if records.all (fun r => decide (r.ts = TField.absent)) then
      (some fs, Except.error AppendError.noTimeColumn)
    else if records.any (fun r => decide (r.ts = TField.bad)) then
      (some fs, Except.error AppendError.badTimestamp)
    else
      let rows := goodRows records
      let res := appendLoop fs (batchMonths rows) rows
      (some res.1, Except.ok res.2)

/-- `read_range(base_dir, time_col, start, end)`: a missing directory gives
an empty frame; otherwise every existing file among the candidate months
is loaded, rows are filtered to the window and sorted ascending.  The
caller receives the same empty list whether the directory was missing or
simply no row fell inside the window. -/
def readRange (d : Dir) (s e : TS) : List SRow :=
  match d with
  | none => []
  | some fs =>
      let ms := List.insertionSort natLe ((monthsFor s e).dedup)
      let frames := ms.filterMap (fun μ => getFile fs μ)
      let rows := frames.flatten
      sortRows (rows.filter (fun r => decide (tsLe s r.ts) && decide (tsLe r.ts e)))

/-! ## Filesystem write-path traces -/

/-- Filesystem operations performed by a merge-write, used to state the
atomic-replace claim.  Paths are the partition keys. -/
inductive FSOp where
  | mkdirOp : FSOp
  | readOp : Nat → FSOp
  | writeOp : Nat → FSOp
  | renameOp : Nat → Nat → FSOp
deriving DecidableEq

def FSOp.isRen : FSOp → Bool
  | FSOp.renameOp _ _ => true
  | _ => false

def mergeMonthTrace (fs : Files) (rows : List SRow) (μ : Nat) : List FSOp :=
  let group := monthGroup rows μ
  match getFile fs μ with
  | some existing =>
      let fresh := group.filter (fun r => !(existing.any (fun x => decide (x.ts = r.ts))))
      FSOp.readOp μ :: (if fresh.isEmpty then [] else [FSOp.writeOp μ])
  | none => [FSOp.writeOp μ]

def appendLoopTrace (fs : Files) (ms : List Nat) (rows : List SRow) : List FSOp :=
  match ms with
  | [] => []
  | μ :: rest =>
      mergeMonthTrace fs rows μ ++ appendLoopTrace (mergeMonth fs rows μ).1 rest rows

/-- The filesystem operations performed by one `append_records` call, in
order.  The `mkdir` happens before the time column is examined, so it also
appears on the error paths; every partition write is `to_parquet(path)` on
the canonical path — there is no temporary file and no rename. -/
def appendTrace (d : Dir) (records : List RawRecord) : List FSOp :=
  if records.isEmpty then []
  else
    let fs := d.getD []
    if records.all (fun r => decide (r.ts = TField.absent)) then [FSOp.mkdirOp]
    else if records.any (fun r => decide (r.ts = TField.bad)) then [FSOp.mkdirOp]
    else
      let rows := goodRows records
      FSOp.mkdirOp :: appendLoopTrace fs (batchMonths rows) rows

/-! ## NetCDF store (src/climate-server/storage/netcdf_store.py) -/

abbrev DsFields := List (String × Option Int)

/-- An xarray `Dataset` over a time dimension: one row of variable values
per time coordinate (`none` = NaN). -/
abbrev DS := List (TS × DsFields)

def dsTimes (ds : DS) : List TS := ds.map (fun p => p.1)

def rowOf (ds : DS) (t : TS) : Option DsFields :=
  (ds.find? (fun p => decide (p.1 = t))).map (fun p => p.2)

def fieldVal (fl : DsFields) (v : String) : Option Int :=
  ((fl.find? (fun q => decide (q.1 = v))).map (fun q => q.2)).join

/-- The value of variable `v` at time `t` (`none` = NaN / not present). -/
def dsValue (ds : DS) (t : TS) (v : String) : Option Int :=
  ((rowOf ds t).map (fun fl => fieldVal fl v)).join

def dsVars (ds : DS) : List String :=
  (ds.flatMap (fun p => p.2.map (fun q => q.1))).dedup

def orElseVal (a b : Option Int) : Option Int :=
  match a with
  | some x => some x
  | none => b

/-- Sorted union of the two time coordinates (a pandas index union is
returned sorted). -/
def unionTimes (dsN dsO : DS) : List TS :=
  List.insertionSort tsLe
    (dsTimes dsN ++
      (dsTimes dsO).filter (fun t => !((dsTimes dsN).any (fun u => decide (u = t)))))

def unionVars (dsN dsO : DS) : List String :=
  dsVars dsN ++ (dsVars dsO).filter (fun v => !((dsVars dsN).any (fun w => decide (w = v))))

/-- `ds_new.combine_first(ds_existing)`: align on the union of the time
coordinates and variables; at each (time, variable) cell the new dataset's
value wins when non-null, otherwise the existing value is kept.  The
overwrite is column-wise, not row-wise. -/
def combineFirst (dsN dsO : DS) : DS :=
  (unionTimes dsN dsO).map (fun t =>
    (t, (unionVars dsN dsO).map (fun v =>
      (v, orElseVal (dsValue dsN t v) (dsValue dsO t v)))))

def dsRowLe (a b : TS × DsFields) : Prop := tsLe a.1 b.1

instance : DecidableRel dsRowLe := fun a b =>
  inferInstanceAs (Decidable (a.1.key ≤ b.1.key))

instance : IsTotal (TS × DsFields) dsRowLe := ⟨fun a b => Nat.le_total a.1.key b.1.key⟩

instance : IsTrans (TS × DsFields) dsRowLe := ⟨fun _ _ _ h h' => Nat.le_trans h h'⟩

def sortDS (ds : DS) : DS := List.insertionSort dsRowLe ds

/-- `save_daily`: merge the incoming daily dataset into the location's file
(column-wise, newest non-null value wins), sort by time, write the file
back in place (`to_netcdf(path, mode="w")`), and return
`len(merged.time) - len(existing.time)`. -/
def saveDaily (file : Option DS) (dsNew : DS) : Option DS × Nat :=
  match file with
  | some dsE =>
      let m := combineFirst dsNew dsE
      (some (sortDS m), m.length - dsE.length)
  | none => (some (sortDS dsNew), dsNew.length)

/-- The filesystem operations of one `save_daily` call: an optional read of
the existing file, then a single direct write of the canonical path. -/
def saveDailyTrace (file : Option DS) : List FSOp :=
  (match file with
   | some _ => [FSOp.readOp 0]
   | none => []) ++ [FSOp.writeOp 0]

/-- `load_range`: `None` when the location file does not exist; otherwise
the time-sliced, variable-projected dataset — possibly empty, but not
None.  When none of the requested variables exists the projection is
skipped (the source's `if valid:` guard). -/
def loadRange (file : Option DS) (dstart dend : Option TS)
    (varSel : Option (List String)) : Option DS :=
  match file with
  | none => none
  | some ds =>
      let ds1 :=
        match dstart, dend with
        | none, none => ds
        | _, _ =>
            ds.filter (fun p =>
              (match dstart with
               | none => true
               | some s => decide (tsLe s p.1)) &&
              (match dend with
               | none => true
               | some e => decide (tsLe p.1 e)))
      let ds2 :=
        match varSel with
        | none => ds1
        | some vs =>
            let valid := vs.filter (fun v => (dsVars ds1).any (fun w => decide (w = v)))
            if valid.isEmpty then ds1
            else ds1.map (fun p =>
              (p.1, p.2.filter (fun q => valid.any (fun v => decide (v = q.1)))))
      some ds2

/-! ## Generic helpers -/

theorem key_injective : Function.Injective TS.key := fun _ _ h => TS.key_inj h

theorem eq_of_perm_of_keySorted {α : Type} (f : α → Nat) {l₁ l₂ : List α}
    (hp : l₁.Perm l₂) (h₁ : l₁.Pairwise (fun a b => f a < f b))
    (h₂ : l₂.Pairwise (fun a b => f a < f b)) : l₁ = l₂ := by
  have : IsAntisymm α (fun a b => f a < f b) := ⟨fun a b h h' => ((Nat.lt_asymm h) h').elim⟩
  exact List.eq_of_perm_of_sorted hp h₁ h₂

theorem pairwise_lt_of_le_nodup {α : Type} (f : α → Nat) {l : List α}
    (hs : l.Pairwise (fun a b => f a ≤ f b)) (hn : (l.map f).Nodup) :
    l.Pairwise (fun a b => f a < f b) := by
  have hne : l.Pairwise (fun a b => f a ≠ f b) := (List.pairwise_map).1 hn
  exact (hs.and hne).imp (fun h => Nat.lt_of_le_of_ne h.1 h.2)

theorem dedup_append_subset {α : Type} [DecidableEq α] {l₁ l₂ : List α}
    (h : ∀ x ∈ l₁, x ∈ l₂) : (l₁ ++ l₂).dedup = l₂.dedup := by
  induction l₁ with
  | nil => simp
  | cons a t ih =>
      simp [List.dedup_cons_of_mem, h a (by simp),
        ih (fun x hx => h x (by simp [hx]))]

/-! ## File-map lemmas -/

theorem getFile_updateFile_self (fs : Files) (μ : Nat) (p : Part) :
    getFile (updateFile fs μ p) μ = some p := by
  induction fs with
  | nil => simp [updateFile, getFile]
  | cons e rest ih =>
      by_cases h : e.1 = μ <;> simp [updateFile, getFile, h, ih]

theorem getFile_updateFile_ne (fs : Files) {μ ν : Nat} (p : Part) (h : ν ≠ μ) :
    getFile (updateFile fs μ p) ν = getFile fs ν := by
  induction fs with
  | nil =>
      simp only [updateFile, getFile]
      rw [if_neg (fun e2 => h e2.symm)]
  | cons f rest ih =>
      simp only [updateFile]
      split_ifs with hf
      · simp only [getFile]
        rw [if_neg (fun e2 => h e2.symm), if_neg (by omega)]
      · simp only [getFile]
        split_ifs with hv
        · rfl
        · exact ih

theorem mem_updateFile {fs : Files} {μ : Nat} {p : Part} {e : Nat × Part}
    (he : e ∈ updateFile fs μ p) : e = (μ, p) ∨ e ∈ fs := by
  induction fs with
  | nil => simpa [updateFile] using he
  | cons f rest ih =>
      by_cases h : f.1 = μ
      · simp [updateFile, h] at he
        rcases he with he | he
        · exact Or.inl (by simp [he])
        · exact Or.inr (by simp [he])
      · simp [updateFile, h] at he
        rcases he with he | he
        · exact Or.inr (by simp [he])
        · rcases ih he with h' | h'
          · exact Or.inl h'
          · exact Or.inr (by simp [h'])

/-! ## Partition invariants -/

/-- No two rows of a partition share a timestamp. -/
def partUnique (p : Part) : Prop := (p.map (fun r => r.ts)).Nodup

/-- The rows of a partition are sorted ascending by timestamp. -/
def partSorted (p : Part) : Prop := List.Sorted rowLe p

/-- Every row of the partition belongs to its file's calendar month. -/
def monthOK (μ : Nat) (p : Part) : Prop := ∀ r ∈ p, monthIdx r.ts = μ

def FilesInv (fs : Files) : Prop :=
  ∀ e ∈ fs, partUnique e.2 ∧ partSorted e.2 ∧ monthOK e.1 e.2

def DirInv (d : Dir) : Prop := FilesInv (d.getD [])

theorem sortRows_perm (p : Part) : (sortRows p).Perm p :=
  List.perm_insertionSort rowLe p

theorem sortRows_sorted (p : Part) : partSorted (sortRows p) :=
  List.sorted_insertionSort rowLe p

theorem sortRows_partUnique {p : Part} (h : partUnique p) : partUnique (sortRows p) := by
  unfold partUnique at h ⊢
  exact (((sortRows_perm p).map (fun r => r.ts)).nodup_iff).2 h

theorem sortRows_monthOK {μ : Nat} {p : Part} (h : monthOK μ p) :
    monthOK μ (sortRows p) := by
  intro r hr
  exact h r ((sortRows_perm p).mem_iff.1 hr)

theorem monthGroup_sub {rows : List SRow} {μ : Nat} {r : SRow}
    (h : r ∈ monthGroup rows μ) : r ∈ rows ∧ monthIdx r.ts = μ := by
  have := List.mem_filter.1 h
  simpa using this

theorem monthGroup_tsNodup {rows : List SRow} {μ : Nat}
    (h : (rows.map (fun r => r.ts)).Nodup) :
    ((monthGroup rows μ).map (fun r => r.ts)).Nodup :=
  h.sublist ((List.filter_sublist rows).map (fun r => r.ts))

/-! ## Parquet merge lemmas -/

theorem getFile_mem {fs : Files} {μ : Nat} {p : Part} (h : getFile fs μ = some p) :
    (μ, p) ∈ fs := by
  induction fs with
  | nil => simp [getFile] at h
  | cons f rest ih =>
      simp only [getFile] at h
      split_ifs at h with hf
      · obtain ⟨a, b⟩ := f
        have ha : a = μ := hf
        subst ha
        injection h with hbp
        subst hbp
        exact List.mem_cons_self _ _
      · exact List.mem_cons_of_mem _ (ih h)

theorem mem_freshFilter {existing group : Part} {r : SRow}
    (h : r ∈ group.filter (fun r => !(existing.any (fun x => decide (x.ts = r.ts))))) :
    r ∈ group ∧ ∀ x ∈ existing, x.ts ≠ r.ts := by
  have hm := List.mem_filter.1 h
  refine ⟨hm.1, ?_⟩
  intro x hx hxe
  have hb := hm.2
  have hany : existing.any (fun e => decide (e.ts = r.ts)) = true :=
    List.any_eq_true.2 ⟨x, hx, by simp [hxe]⟩
  simp [hany] at hb

theorem mergeMonth_inv {fs : Files} {rows : List SRow} {μ : Nat}
    (hinv : FilesInv fs)
    (hnod : ((monthGroup rows μ).map (fun r => r.ts)).Nodup) :
    FilesInv (mergeMonth fs rows μ).1 := by
  unfold mergeMonth
  cases hg : getFile fs μ with
  | none =>
      simp only [hg]
      intro e he
      rcases mem_updateFile he with rfl | hmem
      · refine ⟨sortRows_partUnique hnod, sortRows_sorted _, sortRows_monthOK ?_⟩
        intro r hr
        exact (monthGroup_sub hr).2
      · exact hinv e hmem
  | some existing =>
      obtain ⟨hU, hS, hM⟩ := hinv (μ, existing) (getFile_mem hg)
      simp only [hg]
      split_ifs with hemp
      · exact hinv
      · intro e he
        rcases mem_updateFile he with rfl | hmem
        · have hfr : ((monthGroup rows μ).filter
              (fun r => !(existing.any (fun x => decide (x.ts = r.ts))))).map
                (fun r => r.ts) |>.Nodup :=
            hnod.sublist (List.Sublist.map (fun r : SRow => r.ts)
              (List.filter_sublist (monthGroup rows μ)))
          refine ⟨sortRows_partUnique ?_, sortRows_sorted _, sortRows_monthOK ?_⟩
          · unfold partUnique
            rw [List.map_append]
            refine List.nodup_append.2 ⟨hU, hfr, ?_⟩
            intro t ht ht'
            simp only [List.mem_map] at ht ht'
            obtain ⟨x, hx, hxe⟩ := ht
            obtain ⟨y, hy, hye⟩ := ht'
            exact (mem_freshFilter hy).2 x hx (by rw [hxe, hye])
          · intro r hr
            rcases List.mem_append.1 hr with hr | hr
            · exact hM r hr
            · exact (monthGroup_sub (mem_freshFilter hr).1).2
        · exact hinv e hmem

theorem mergeMonth_getFile_ne {fs : Files} {rows : List SRow} {μ ν : Nat} (h : ν ≠ μ) :
    getFile (mergeMonth fs rows μ).1 ν = getFile fs ν := by
  unfold mergeMonth
  cases hg : getFile fs μ with
  | none => simpa using getFile_updateFile_ne fs _ h
  | some existing =>
      simp only [hg]
      split_ifs with hemp
      · rfl
      · simpa using getFile_updateFile_ne fs _ h

theorem mergeMonth_stores {fs : Files} {rows : List SRow} {μ : Nat} :
    ∃ p, getFile (mergeMonth fs rows μ).1 μ = some p ∧
      ∀ x ∈ monthGroup rows μ, x.ts ∈ p.map (fun r => r.ts) := by
  unfold mergeMonth
  cases hg : getFile fs μ with
  | none =>
      refine ⟨sortRows (monthGroup rows μ), by simp [hg, getFile_updateFile_self], ?_⟩
      intro x hx
      exact ((sortRows_perm _).map (fun r => r.ts)).mem_iff.2
        (List.mem_map.2 ⟨x, hx, rfl⟩)
  | some existing =>
      simp only [hg]
      split_ifs with hemp
      · refine ⟨existing, hg, ?_⟩
        intro x hx
        have hnil := List.isEmpty_iff.1 hemp
        have hnp := List.filter_eq_nil_iff.1 hnil x hx
        cases hany : existing.any (fun e => decide (e.ts = x.ts)) with
        | false => exact absurd (by simp [hany]) hnp
        | true =>
            obtain ⟨y, hy, hye⟩ := List.any_eq_true.1 hany
            exact List.mem_map.2 ⟨y, hy, by simpa using hye⟩
      · refine ⟨_, getFile_updateFile_self fs μ _, ?_⟩
        intro x hx
        refine ((sortRows_perm _).map (fun r => r.ts)).mem_iff.2 ?_
        rw [List.map_append]
        cases hany : existing.any (fun e => decide (e.ts = x.ts)) with
        | true =>
            obtain ⟨y, hy, hye⟩ := List.any_eq_true.1 hany
            exact List.mem_append.2 (Or.inl (List.mem_map.2 ⟨y, hy, by simpa using hye⟩))
        | false =>
            refine List.mem_append.2 (Or.inr (List.mem_map.2 ⟨x, ?_, rfl⟩))
            exact List.mem_filter.2 ⟨hx, by simp [hany]⟩

theorem appendLoop_inv {rows : List SRow}
    (hnodg : (rows.map (fun r => r.ts)).Nodup) :
    ∀ (ms : List Nat) (fs : Files), FilesInv fs → FilesInv (appendLoop fs ms rows).1 := by
  intro ms
  induction ms with
  | nil => intro fs h; exact h
  | cons μ rest ih =>
      intro fs h
      exact ih _ (mergeMonth_inv h (monthGroup_tsNodup hnodg))

theorem appendLoop_getFile_not_mem {rows : List SRow} :
    ∀ (ms : List Nat) (fs : Files) (μ : Nat), μ ∉ ms →
      getFile (appendLoop fs ms rows).1 μ = getFile fs μ := by
  intro ms
  induction ms with
  | nil => intro fs μ _; rfl
  | cons ν rest ih =>
      intro fs μ hμ
      have h1 : μ ∉ rest := fun h => hμ (List.mem_cons_of_mem _ h)
      have h2 : μ ≠ ν := fun h => hμ (h ▸ List.mem_cons_self _ _)
      calc getFile (appendLoop (mergeMonth fs rows ν).1 rest rows).1 μ
        _ = getFile (mergeMonth fs rows ν).1 μ := ih _ μ h1
        _ = getFile fs μ := mergeMonth_getFile_ne h2

theorem appendLoop_stores {rows : List SRow} :
    ∀ (ms : List Nat) (fs : Files) (μ : Nat), μ ∈ ms → ms.Nodup →
      ∃ p, getFile (appendLoop fs ms rows).1 μ = some p ∧
        ∀ x ∈ monthGroup rows μ, x.ts ∈ p.map (fun r => r.ts) := by
  intro ms
  induction ms with
  | nil => intro fs μ h; simp at h
  | cons ν rest ih =>
      intro fs μ hμ hnod
      rcases List.mem_cons.1 hμ with rfl | hμ'
      · obtain ⟨p, hp, hall⟩ := @mergeMonth_stores fs rows μ
        refine ⟨p, ?_, hall⟩
        have hrest : μ ∉ rest := (List.nodup_cons.1 hnod).1
        calc getFile (appendLoop (mergeMonth fs rows μ).1 rest rows).1 μ
          _ = getFile (mergeMonth fs rows μ).1 μ := appendLoop_getFile_not_mem _ _ μ hrest
          _ = some p := hp
      · exact ih _ μ hμ' (List.nodup_cons.1 hnod).2

theorem mergeMonth_noop {fs : Files} {rows : List SRow} {μ : Nat} {ex : Part}
    (hg : getFile fs μ = some ex)
    (hsub : ∀ x ∈ monthGroup rows μ, x.ts ∈ ex.map (fun r => r.ts)) :
    mergeMonth fs rows μ = (fs, 0) := by
  unfold mergeMonth
  simp only [hg]
  have hnil : (monthGroup rows μ).filter
      (fun r => !(ex.any (fun x => decide (x.ts = r.ts)))) = [] := by
    refine List.filter_eq_nil_iff.2 ?_
    intro r hr
    obtain ⟨y, hy, hye⟩ := List.mem_map.1 (hsub r hr)
    have hany : ex.any (fun x => decide (x.ts = r.ts)) = true :=
      List.any_eq_true.2 ⟨y, hy, by simp [hye]⟩
    simp [hany]
  simp [hnil]

theorem appendLoop_noop {rows : List SRow} :
    ∀ (ms : List Nat) (fs : Files),
      (∀ μ ∈ ms, ∃ ex, getFile fs μ = some ex ∧
        ∀ x ∈ monthGroup rows μ, x.ts ∈ ex.map (fun r => r.ts)) →
      appendLoop fs ms rows = (fs, 0) := by
  intro ms
  induction ms with
  | nil => intro fs _; rfl
  | cons ν rest ih =>
      intro fs hns
      obtain ⟨ex, hg, hsub⟩ := hns ν (List.mem_cons_self _ _)
      have hmm := mergeMonth_noop hg hsub
      have hstep : appendLoop fs (ν :: rest) rows =
          ((appendLoop (mergeMonth fs rows ν).1 rest rows).1,
            (mergeMonth fs rows ν).2 + (appendLoop (mergeMonth fs rows ν).1 rest rows).2) := rfl
      have ihr := ih fs (fun μ hμ => hns μ (List.mem_cons_of_mem _ hμ))
      rw [hstep, hmm]
      simp [ihr]

/-! ## Month enumeration (read_range / read_recent loop) -/

theorem collectMonths_bounds :
    ∀ (cur fin : TS) (μ : Nat), μ ∈ collectMonths cur fin →
      monthIdx cur ≤ μ ∧ μ ≤ monthIdx fin := by
  intro cur fin
  induction cur, fin using collectMonths.induct with
  | case1 cur fin h ih =>
      intro μ hμ
      rw [collectMonths, if_pos h] at hμ
      rcases List.mem_cons.1 hμ with rfl | hμ2
      · exact ⟨Nat.le_refl _, monthIdx_mono h⟩
      · obtain ⟨h1, h2⟩ := ih μ hμ2
        have hmo := @monthIdx_mono cur (TS.addDays 28 cur) (key_le_addDays 28 cur)
        exact ⟨Nat.le_trans hmo h1, h2⟩
  | case2 cur fin h =>
      intro μ hμ
      rw [collectMonths, if_neg h] at hμ
      simp at hμ

theorem collectMonths_complete :
    ∀ (cur fin : TS) (μ : Nat), monthIdx cur ≤ μ → μ ≤ monthIdx fin →
      μ ∈ collectMonths cur fin ∨ μ = monthIdx fin := by
  intro cur fin
  induction cur, fin using collectMonths.induct with
  | case1 cur fin h ih =>
      intro μ h1 h2
      rcases Nat.eq_or_lt_of_le h1 with heq | hlt
      · left
        rw [collectMonths, if_pos h, ← heq]
        exact List.mem_cons_self _ _
      · have hskip := monthIdx_addDays28 cur
        rcases ih μ (by omega) h2 with hin | heq2
        · left
          rw [collectMonths, if_pos h]
          exact List.mem_cons_of_mem _ hin
        · right; exact heq2
  | case2 cur fin h =>
      intro μ h1 h2
      right
      have hfc : fin.key ≤ cur.key := Nat.le_of_lt (Nat.lt_of_not_le h)
      have := @monthIdx_mono fin cur hfc
      omega

theorem firstOfMonth_valid (μ : Nat) :
    DateTime.Valid ⟨μ / 12, μ % 12 + 1, 1, 0⟩ := by
  have h12 : μ % 12 < 12 := Nat.mod_lt _ (by norm_num)
  have hg := daysInMonth_ge (μ / 12) (μ % 12 + 1)
  refine ⟨?_, ?_, ?_, ?_, ?_⟩ <;> simp <;> omega

/-- The first instant of linear month `μ`. -/
def firstOfMonth (μ : Nat) : TS := ⟨⟨μ / 12, μ % 12 + 1, 1, 0⟩, firstOfMonth_valid μ⟩

theorem monthIdx_firstOfMonth (μ : Nat) : monthIdx (firstOfMonth μ) = μ := by
  have := Nat.div_add_mod μ 12
  show 12 * (μ / 12) + (μ % 12 + 1) - 1 = μ
  omega

theorem firstOfMonth_key_le {e : TS} {μ : Nat} (h : μ ≤ monthIdx e) :
    (firstOfMonth μ).key ≤ e.key := by
  rcases Nat.eq_or_lt_of_le h with heq | hlt
  · obtain ⟨b1, b2, b3, b4, b5⟩ := e.valid_bounds
    have hdm := Nat.div_add_mod μ 12
    simp only [monthIdx] at heq
    show ((μ / 12 * 13 + (μ % 12 + 1)) * 32 + 1) * 86400 + 0 ≤ e.key
    simp only [TS.key]
    omega
  · exact Nat.le_of_lt (key_lt_of_monthIdx_lt (by rw [monthIdx_firstOfMonth]; exact hlt))

theorem mem_Icc_iff_window {s e : TS} (h : tsLe s e) (μ : Nat) :
    μ ∈ Finset.Icc (monthIdx s) (monthIdx e) ↔
      ∃ t : TS, tsLe s t ∧ tsLe t e ∧ monthIdx t = μ := by
  constructor
  · intro hμ
    obtain ⟨h1, h2⟩ := Finset.mem_Icc.1 hμ
    rcases Nat.eq_or_lt_of_le h1 with heq | hlt
    · exact ⟨s, Nat.le_refl _, h, heq⟩
    · refine ⟨firstOfMonth μ, ?_, ?_, monthIdx_firstOfMonth μ⟩
      · exact Nat.le_of_lt (key_lt_of_monthIdx_lt (by rw [monthIdx_firstOfMonth]; exact hlt))
      · exact firstOfMonth_key_le h2
  · rintro ⟨t, h1, h2, rfl⟩
    exact Finset.mem_Icc.2 ⟨monthIdx_mono h1, monthIdx_mono h2⟩

theorem monthsFor_toFinset {s e : TS} (h : tsLe s e) :
    (monthsFor s e).toFinset = Finset.Icc (monthIdx s) (monthIdx e) := by
  ext μ
  simp only [List.mem_toFinset, monthsFor, List.mem_append, List.mem_singleton,
    Finset.mem_Icc]
  constructor
  · rintro (hin | rfl)
    · exact collectMonths_bounds s e μ hin
    · exact ⟨monthIdx_mono h, Nat.le_refl _⟩
  · rintro ⟨h1, h2⟩
    rcases collectMonths_complete s e μ h1 h2 with hin | heq
    · exact Or.inl hin
    · exact Or.inr heq

/-! ## NetCDF dataset lemmas -/

theorem orElseVal_absorb (a b : Option Int) :
    orElseVal a (orElseVal a b) = orElseVal a b := by
  cases a <;> rfl

theorem orElseVal_self (a : Option Int) : orElseVal a a = a := by
  cases a <;> rfl

/-- xarray Datasets are dense: every variable carries a value slot (possibly
NaN) at every time coordinate, so each row lists exactly the dataset's
variables. -/
def dsDense (ds : DS) : Prop := ∀ p ∈ ds, p.2.map (fun q => q.1) = dsVars ds

theorem fieldVal_not_key {fl : DsFields} {v : String}
    (h : v ∉ fl.map (fun q => q.1)) : fieldVal fl v = none := by
  induction fl with
  | nil => rfl
  | cons q rest ih =>
      have hq : ¬ q.1 = v := fun e => h (by simp [e])
      simp only [fieldVal] at ih ⊢
      rw [List.find?_cons_of_neg _ (by simpa using hq)]
      exact ih (fun hm => h (by simp [hm]))

theorem fieldVal_mapVars (g : String → Option Int) :
    ∀ (vars : List String) {v : String}, v ∈ vars →
      fieldVal (vars.map (fun w => (w, g w))) v = g v := by
  intro vars
  induction vars with
  | nil => intro v hv; simp at hv
  | cons w rest ih =>
      intro v hv
      by_cases he : w = v
      · subst he
        simp only [fieldVal, List.map_cons]
        rw [List.find?_cons_of_pos _ (by simp)]
        rfl
      · rcases List.mem_cons.1 hv with heq | hv2
        · exact absurd heq.symm he
        · simp only [fieldVal, List.map_cons] at ih ⊢
          rw [List.find?_cons_of_neg _ (by simpa using he)]
          exact ih hv2

theorem fieldVal_mapVars_not (g : String → Option Int) {vars : List String}
    {v : String} (hv : v ∉ vars) :
    fieldVal (vars.map (fun w => (w, g w))) v = none := by
  refine fieldVal_not_key ?_
  simpa using hv

theorem rowOf_not_mem {ds : DS} {t : TS} (h : t ∉ dsTimes ds) : rowOf ds t = none := by
  induction ds with
  | nil => rfl
  | cons p rest ih =>
      have hp : ¬ p.1 = t := fun e => h (by simp [dsTimes, e])
      simp only [rowOf] at ih ⊢
      rw [List.find?_cons_of_neg _ (by simpa using hp)]
      exact ih (fun hm => h (by simp [dsTimes] at hm ⊢; exact Or.inr hm))

theorem rowOf_mapTimes (f : TS → DsFields) :
    ∀ (times : List TS) {t : TS}, t ∈ times →
      rowOf (times.map (fun u => (u, f u))) t = some (f t) := by
  intro times
  induction times with
  | nil => intro t ht; simp at ht
  | cons u rest ih =>
      intro t ht
      by_cases he : u = t
      · subst he
        simp only [rowOf, List.map_cons]
        rw [List.find?_cons_of_pos _ (by simp)]
        rfl
      · rcases List.mem_cons.1 ht with heq | ht2
        · exact absurd heq.symm he
        · simp only [rowOf, List.map_cons] at ih ⊢
          rw [List.find?_cons_of_neg _ (by simpa using he)]
          exact ih ht2

theorem dsValue_not_time {ds : DS} {t : TS} {v : String}
    (h : t ∉ dsTimes ds) : dsValue ds t v = none := by
  unfold dsValue
  rw [rowOf_not_mem h]
  rfl

theorem rowOf_mem {ds : DS} {t : TS} {fl : DsFields} (h : rowOf ds t = some fl) :
    (t, fl) ∈ ds := by
  unfold rowOf at h
  cases hf : ds.find? (fun p => decide (p.1 = t)) with
  | none => rw [hf] at h; simp at h
  | some q =>
      rw [hf] at h
      have hq := List.find?_some hf
      have hm := List.mem_of_find?_eq_some hf
      have h2 : q.2 = fl := by simpa using h
      have ht : q.1 = t := by simpa using hq
      obtain ⟨a, b⟩ := q
      simp only at ht h2
      subst ht; subst h2
      exact hm

theorem dsValue_not_var {ds : DS} {t : TS} {v : String}
    (h : v ∉ dsVars ds) : dsValue ds t v = none := by
  unfold dsValue
  cases hr : rowOf ds t with
  | none => rfl
  | some fl =>
      have hmem := rowOf_mem hr
      have hk : v ∉ fl.map (fun q => q.1) := by
        intro hv
        refine h (List.mem_dedup.2 ?_)
        refine List.mem_flatMap.2 ⟨(t, fl), hmem, hv⟩
      show fieldVal fl v = none
      exact fieldVal_not_key hk

theorem rowOf_eq_some_iff {ds : DS} (hn : (dsTimes ds).Nodup) {t : TS} {fl : DsFields} :
    rowOf ds t = some fl ↔ (t, fl) ∈ ds := by
  constructor
  · exact rowOf_mem
  · intro hm
    induction ds with
    | nil => simp at hm
    | cons p rest ih =>
        have hn2 := (List.nodup_cons.1 hn).2
        rcases List.mem_cons.1 hm with heq | hm2
        · subst heq
          simp only [rowOf]
          rw [List.find?_cons_of_pos _ (by simp)]
          rfl
        · have hp : ¬ p.1 = t := by
            intro e
            have hmm : t ∈ dsTimes rest := List.mem_map.2 ⟨(t, fl), hm2, rfl⟩
            have hmm2 : p.1 ∈ dsTimes rest := by rw [e]; exact hmm
            exact (List.nodup_cons.1 hn).1 hmm2
          simp only [rowOf] at ih ⊢
          rw [List.find?_cons_of_neg _ (by simpa using hp)]
          exact ih hn2 hm2

theorem rowOf_perm {ds ds2 : DS} (hp : ds.Perm ds2) (hn : (dsTimes ds).Nodup)
    (t : TS) : rowOf ds t = rowOf ds2 t := by
  have hn' : (ds.map (fun p => p.1)).Nodup := hn
  have hn2' : (ds2.map (fun p => p.1)).Nodup := ((hp.map (fun p => p.1)).nodup_iff).1 hn'
  have hn2 : (dsTimes ds2).Nodup := hn2'
  cases hr : rowOf ds t with
  | some fl =>
      exact ((rowOf_eq_some_iff hn2).2 (hp.mem_iff.1 ((rowOf_eq_some_iff hn).1 hr))).symm
  | none =>
      cases hr2 : rowOf ds2 t with
      | none => rfl
      | some fl =>
          have := (rowOf_eq_some_iff hn).2 (hp.mem_iff.2 ((rowOf_eq_some_iff hn2).1 hr2))
          rw [hr] at this
          exact absurd this (by simp)

theorem dsValue_perm {ds ds2 : DS} (hp : ds.Perm ds2) (hn : (dsTimes ds).Nodup)
    (t : TS) (v : String) : dsValue ds t v = dsValue ds2 t v := by
  unfold dsValue
  rw [rowOf_perm hp hn]

theorem assoc_reconstruct {fl : DsFields} (h : (fl.map (fun q => q.1)).Nodup) :
    (fl.map (fun q => q.1)).map (fun v => (v, fieldVal fl v)) = fl := by
  induction fl with
  | nil => rfl
  | cons q rest ih =>
      simp only [List.map_cons, List.map_map]
      have hq : fieldVal (q :: rest) q.1 = q.2 := by
        simp only [fieldVal]
        rw [List.find?_cons_of_pos _ (by simp)]
        rfl
      have hrest : ∀ v ∈ rest.map (fun q2 => q2.1),
          fieldVal (q :: rest) v = fieldVal rest v := by
        intro v hv
        have hne : ¬ q.1 = v := by
          intro e
          have hv2 : q.1 ∈ rest.map (fun q2 => q2.1) := by rw [e]; exact hv
          exact (List.nodup_cons.1 h).1 hv2
        simp only [fieldVal]
        rw [List.find?_cons_of_neg _ (by simpa using hne)]
      have ihr := ih (List.nodup_cons.1 h).2
      calc (q.1, fieldVal (q :: rest) q.1) ::
            rest.map ((fun v => (v, fieldVal (q :: rest) v)) ∘ (fun q2 => q2.1))
          = (q.1, q.2) :: rest.map (fun q2 => (q2.1, fieldVal (q :: rest) q2.1)) := by
            rw [hq]; rfl
        _ = (q.1, q.2) :: rest.map (fun q2 => (q2.1, fieldVal rest q2.1)) := by
            refine congrArg _ (List.map_congr_left ?_)
            intro a ha
            rw [hrest a.1 (List.mem_map.2 ⟨a, ha, rfl⟩)]
        _ = q :: rest := by
            rw [show rest.map (fun q2 => (q2.1, fieldVal rest q2.1)) =
                (rest.map (fun q2 => q2.1)).map (fun v => (v, fieldVal rest v)) from by
              rw [List.map_map]; rfl]
            rw [ihr]

theorem ds_eq_mapTimes {ds : DS} (hn : (dsTimes ds).Nodup) :
    ds = (dsTimes ds).map (fun t => (t, (rowOf ds t).getD [])) := by
  induction ds with
  | nil => rfl
  | cons p rest ih =>
      have hn0 : (p.1 :: dsTimes rest).Nodup := hn
      have hn1 := (List.nodup_cons.1 hn0).1
      have hn2 : (dsTimes rest).Nodup := (List.nodup_cons.1 hn0).2
      have hhead : rowOf (p :: rest) p.1 = some p.2 := by
        simp only [rowOf]
        rw [List.find?_cons_of_pos _ (by simp)]
        rfl
      have htail : ∀ t ∈ dsTimes rest, rowOf (p :: rest) t = rowOf rest t := by
        intro t ht
        have hne : ¬ p.1 = t := fun e => hn1 (e ▸ ht)
        simp only [rowOf]
        rw [List.find?_cons_of_neg _ (by simpa using hne)]
      show p :: rest = (p.1 :: dsTimes rest).map (fun t => (t, (rowOf (p :: rest) t).getD []))
      simp only [List.map_cons]
      rw [hhead]
      rw [show ((p.1, (some p.2).getD []) : TS × DsFields) = p from rfl]
      refine congrArg (List.cons p) ?_
      calc rest = (dsTimes rest).map (fun t => (t, (rowOf rest t).getD [])) := ih hn2
        _ = (dsTimes rest).map (fun t => (t, (rowOf (p :: rest) t).getD [])) := by
            refine List.map_congr_left ?_
            intro t ht
            rw [htail t ht]

/-! ## combine_first lemmas -/

theorem ts_sorted_eq {l1 l2 : List TS} (hp : l1.Perm l2) (h1 : l1.Sorted tsLe)
    (h2 : l2.Sorted tsLe) (hn : l1.Nodup) : l1 = l2 := by
  have hk1 : (l1.map TS.key).Nodup := hn.map key_injective
  have hk2 : (l2.map TS.key).Nodup := ((hp.map TS.key).nodup_iff).1 hk1
  refine eq_of_perm_of_keySorted TS.key hp ?_ ?_
  · exact pairwise_lt_of_le_nodup TS.key (h1.imp (fun h => h)) hk1
  · exact pairwise_lt_of_le_nodup TS.key (h2.imp (fun h => h)) hk2

theorem rows_sorted_eq {l1 l2 : DS} (hp : l1.Perm l2) (h1 : l1.Sorted dsRowLe)
    (h2 : l2.Sorted dsRowLe) (hn : (dsTimes l1).Nodup) : l1 = l2 := by
  have hn' : (l1.map (fun p => p.1)).Nodup := hn
  have hk1 : (l1.map (fun p => p.1.key)).Nodup := by
    have he : l1.map (fun p : TS × DsFields => p.1.key) =
        (l1.map (fun p => p.1)).map TS.key := by rw [List.map_map]; rfl
    rw [he]
    exact hn'.map key_injective
  have hk2 : (l2.map (fun p => p.1.key)).Nodup :=
    ((hp.map (fun p => p.1.key)).nodup_iff).1 hk1
  refine eq_of_perm_of_keySorted (fun p => p.1.key) hp ?_ ?_
  · exact pairwise_lt_of_le_nodup _ (h1.imp (fun h => h)) hk1
  · exact pairwise_lt_of_le_nodup _ (h2.imp (fun h => h)) hk2

theorem mem_unionTimes {dsN dsO : DS} {t : TS} :
    t ∈ unionTimes dsN dsO ↔ t ∈ dsTimes dsN ∨ t ∈ dsTimes dsO := by
  unfold unionTimes
  rw [List.mem_insertionSort, List.mem_append]
  constructor
  · rintro (h | h)
    · exact Or.inl h
    · exact Or.inr (List.mem_filter.1 h).1
  · rintro (h | h)
    · exact Or.inl h
    · by_cases hN : t ∈ dsTimes dsN
      · exact Or.inl hN
      · refine Or.inr (List.mem_filter.2 ⟨h, ?_⟩)
        cases hany : (dsTimes dsN).any (fun u => decide (u = t)) with
        | false => simp [hany]
        | true =>
            obtain ⟨u, hu, hue⟩ := List.any_eq_true.1 hany
            have he : u = t := by simpa using hue
            exact absurd (he ▸ hu) hN

theorem unionTimes_nodup {dsN dsO : DS} (hN : (dsTimes dsN).Nodup)
    (hO : (dsTimes dsO).Nodup) : (unionTimes dsN dsO).Nodup := by
  refine ((List.perm_insertionSort tsLe _).nodup_iff).2 ?_
  refine List.nodup_append.2 ⟨hN, hO.sublist (List.filter_sublist _), ?_⟩
  intro t htN htF
  have hp := (List.mem_filter.1 htF).2
  have hany : (dsTimes dsN).any (fun u => decide (u = t)) = true :=
    List.any_eq_true.2 ⟨t, htN, by simp⟩
  simp [hany] at hp

theorem unionTimes_sorted (dsN dsO : DS) : (unionTimes dsN dsO).Sorted tsLe :=
  List.sorted_insertionSort tsLe _

theorem combineFirst_times (dsN dsO : DS) :
    dsTimes (combineFirst dsN dsO) = unionTimes dsN dsO := by
  unfold combineFirst dsTimes
  rw [List.map_map]
  exact List.map_id _

theorem combineFirst_sorted (dsN dsO : DS) :
    (combineFirst dsN dsO).Sorted dsRowLe := by
  unfold combineFirst
  refine (List.pairwise_map).2 ?_
  exact (unionTimes_sorted dsN dsO).imp (fun h => h)

theorem sortDS_sorted (ds : DS) : (sortDS ds).Sorted dsRowLe :=
  List.sorted_insertionSort _ _

theorem sortDS_perm (ds : DS) : (sortDS ds).Perm ds :=
  List.perm_insertionSort _ _

theorem sortDS_combineFirst (dsN dsO : DS) :
    sortDS (combineFirst dsN dsO) = combineFirst dsN dsO :=
  List.Sorted.insertionSort_eq (combineFirst_sorted dsN dsO)

theorem mem_unionVars {dsN dsO : DS} {v : String} :
    v ∈ unionVars dsN dsO ↔ v ∈ dsVars dsN ∨ v ∈ dsVars dsO := by
  unfold unionVars
  rw [List.mem_append]
  constructor
  · rintro (h | h)
    · exact Or.inl h
    · exact Or.inr (List.mem_filter.1 h).1
  · rintro (h | h)
    · exact Or.inl h
    · by_cases hN : v ∈ dsVars dsN
      · exact Or.inl hN
      · refine Or.inr (List.mem_filter.2 ⟨h, ?_⟩)
        cases hany : (dsVars dsN).any (fun w => decide (w = v)) with
        | false => simp [hany]
        | true =>
            obtain ⟨w, hw, hwe⟩ := List.any_eq_true.1 hany
            have he : w = v := by simpa using hwe
            exact absurd (he ▸ hw) hN

theorem unionVars_nodup (dsN dsO : DS) : (unionVars dsN dsO).Nodup := by
  refine List.nodup_append.2
    ⟨List.nodup_dedup _, (List.nodup_dedup _).sublist (List.filter_sublist _), ?_⟩
  intro v hvN hvF
  have hp := (List.mem_filter.1 hvF).2
  have hany : (dsVars dsN).any (fun w => decide (w = v)) = true :=
    List.any_eq_true.2 ⟨v, hvN, by simp⟩
  simp [hany] at hp

theorem rowOf_combineFirst {dsN dsO : DS} {t : TS} (ht : t ∈ unionTimes dsN dsO) :
    rowOf (combineFirst dsN dsO) t =
      some ((unionVars dsN dsO).map
        (fun w => (w, orElseVal (dsValue dsN t w) (dsValue dsO t w)))) := by
  unfold combineFirst
  exact rowOf_mapTimes _ _ ht

/-- The value law of `combine_first`: at every time and variable, the
merged dataset holds the new value when non-null and the existing value
otherwise — the column-wise overwrite the source relies on. -/
theorem dsValue_combineFirst (dsN dsO : DS) (t : TS) (v : String) :
    dsValue (combineFirst dsN dsO) t v =
      orElseVal (dsValue dsN t v) (dsValue dsO t v) := by
  by_cases ht : t ∈ unionTimes dsN dsO
  · rw [dsValue, rowOf_combineFirst ht]
    by_cases hv : v ∈ unionVars dsN dsO
    · show fieldVal ((unionVars dsN dsO).map
        (fun w => (w, orElseVal (dsValue dsN t w) (dsValue dsO t w)))) v = _
      rw [fieldVal_mapVars _ _ hv]
    · have hvN : v ∉ dsVars dsN := fun hh => hv (mem_unionVars.2 (Or.inl hh))
      have hvO : v ∉ dsVars dsO := fun hh => hv (mem_unionVars.2 (Or.inr hh))
      show fieldVal ((unionVars dsN dsO).map
        (fun w => (w, orElseVal (dsValue dsN t w) (dsValue dsO t w)))) v = _
      rw [fieldVal_mapVars_not _ hv, dsValue_not_var hvN, dsValue_not_var hvO]
      rfl
  · have htC : t ∉ dsTimes (combineFirst dsN dsO) := by
      rw [combineFirst_times]; exact ht
    have htN : t ∉ dsTimes dsN := fun hh => ht (mem_unionTimes.2 (Or.inl hh))
    have htO : t ∉ dsTimes dsO := fun hh => ht (mem_unionTimes.2 (Or.inr hh))
    rw [dsValue_not_time htC, dsValue_not_time htN, dsValue_not_time htO]
    rfl

/-! ## Idempotence of the netcdf merge -/

theorem keys_mapVars (g : String → Option Int) (V : List String) :
    (V.map (fun v => (v, g v))).map (fun q => q.1) = V := by
  rw [List.map_map]
  exact List.map_id _

theorem dsVars_mapTimes {V : List String} (hV : V.Nodup) (g : TS → String → Option Int) :
    ∀ (times : List TS), times ≠ [] →
      dsVars (times.map (fun t => (t, V.map (fun v => (v, g t v))))) = V := by
  intro times
  induction times with
  | nil => intro h; exact absurd rfl h
  | cons t rest ih =>
      intro _
      show ((( t, V.map (fun v => (v, g t v))) :: rest.map
        (fun t2 => (t2, V.map (fun v => (v, g t2 v))))).flatMap
          (fun p => p.2.map (fun q => q.1))).dedup = V
      rw [List.flatMap_cons _ _ _]
      by_cases hr : rest = []
      · subst hr
        simp only [List.map_nil, List.flatMap_nil, List.append_nil]
        rw [show ((t, V.map (fun v => (v, g t v))).2.map (fun q => q.1)) =
            (V.map (fun v => (v, g t v))).map (fun q => q.1) from rfl]
        rw [keys_mapVars]
        exact List.dedup_eq_self.2 hV
      · obtain ⟨u, rest2, rfl⟩ : ∃ u rest2, rest = u :: rest2 := by
          cases rest with
          | nil => exact absurd rfl hr
          | cons u r2 => exact ⟨u, r2, rfl⟩
        rw [dedup_append_subset ?_]
        · exact ih hr
        · intro x hx
          have hx2 : x ∈ V := by
            rw [show ((t, V.map (fun v => (v, g t v))).2.map (fun q => q.1)) =
                (V.map (fun v => (v, g t v))).map (fun q => q.1) from rfl,
              keys_mapVars] at hx
            exact hx
          rw [List.map_cons, List.flatMap_cons _ _ _]
          refine List.mem_append.2 (Or.inl ?_)
          rw [show ((u, V.map (fun v => (v, g u v))).2.map (fun q => q.1)) =
              (V.map (fun v => (v, g u v))).map (fun q => q.1) from rfl,
            keys_mapVars]
          exact hx2

theorem dsVars_combineFirst {dsN dsO : DS} (hne : unionTimes dsN dsO ≠ []) :
    dsVars (combineFirst dsN dsO) = unionVars dsN dsO := by
  unfold combineFirst
  exact dsVars_mapTimes (unionVars_nodup dsN dsO) _ _ hne

theorem unionTimes_absorb {dsN dsO : DS} (hN : (dsTimes dsN).Nodup)
    (hO : (dsTimes dsO).Nodup) :
    unionTimes dsN (combineFirst dsN dsO) = unionTimes dsN dsO := by
  have hperm : ((dsTimes (combineFirst dsN dsO)).filter
      (fun t => !((dsTimes dsN).any (fun u => decide (u = t))))).Perm
        ((dsTimes dsO).filter (fun t => !((dsTimes dsN).any (fun u => decide (u = t))))) := by
    rw [combineFirst_times]
    have h1 : (unionTimes dsN dsO).Perm
        (dsTimes dsN ++ (dsTimes dsO).filter
          (fun t => !((dsTimes dsN).any (fun u => decide (u = t))))) :=
      List.perm_insertionSort _ _
    refine (h1.filter _).trans ?_
    rw [List.filter_append]
    have hN0 : (dsTimes dsN).filter
        (fun t => !((dsTimes dsN).any (fun u => decide (u = t)))) = [] := by
      refine List.filter_eq_nil_iff.2 ?_
      intro t ht
      have hany : (dsTimes dsN).any (fun u => decide (u = t)) = true :=
        List.any_eq_true.2 ⟨t, ht, by simp⟩
      simp [hany]
    have hFF : ((dsTimes dsO).filter
        (fun t => !((dsTimes dsN).any (fun u => decide (u = t))))).filter
          (fun t => !((dsTimes dsN).any (fun u => decide (u = t)))) =
        (dsTimes dsO).filter
          (fun t => !((dsTimes dsN).any (fun u => decide (u = t)))) := by
      refine List.filter_eq_self.2 ?_
      intro t ht
      exact (List.mem_filter.1 ht).2
    rw [hN0, hFF, List.nil_append]
  refine ts_sorted_eq ?_ (List.sorted_insertionSort _ _) (List.sorted_insertionSort _ _) ?_
  · refine (List.perm_insertionSort _ _).trans ?_
    refine (hperm.append_left (dsTimes dsN)).trans ?_
    exact (List.perm_insertionSort _ _).symm
  · exact unionTimes_nodup hN (by rw [combineFirst_times]; exact unionTimes_nodup hN hO)

theorem unionVars_absorb {dsN dsO : DS} :
    unionVars dsN (combineFirst dsN dsO) = unionVars dsN dsO := by
  by_cases hne : unionTimes dsN dsO = []
  · have hNnil : dsTimes dsN = [] := by
      cases hh : dsTimes dsN with
      | nil => rfl
      | cons a l =>
          have hmm : a ∈ unionTimes dsN dsO :=
            mem_unionTimes.2 (Or.inl (by rw [hh]; exact List.mem_cons_self _ _))
          rw [hne] at hmm
          simp at hmm
    have hOnil : dsTimes dsO = [] := by
      cases hh : dsTimes dsO with
      | nil => rfl
      | cons a l =>
          have hmm : a ∈ unionTimes dsN dsO :=
            mem_unionTimes.2 (Or.inr (by rw [hh]; exact List.mem_cons_self _ _))
          rw [hne] at hmm
          simp at hmm
    have h1 : dsN = [] := by
      cases dsN with
      | nil => rfl
      | cons p l => simp [dsTimes] at hNnil
    have h2 : dsO = [] := by
      cases dsO with
      | nil => rfl
      | cons p l => simp [dsTimes] at hOnil
    subst h1
    subst h2
    rfl
  · have hC := dsVars_combineFirst hne
    show dsVars dsN ++ (dsVars (combineFirst dsN dsO)).filter
        (fun v => !((dsVars dsN).any (fun w => decide (w = v)))) = unionVars dsN dsO
    rw [hC]
    show dsVars dsN ++ (dsVars dsN ++ (dsVars dsO).filter
        (fun v => !((dsVars dsN).any (fun w => decide (w = v))))).filter
          (fun v => !((dsVars dsN).any (fun w => decide (w = v)))) =
      dsVars dsN ++ (dsVars dsO).filter
        (fun v => !((dsVars dsN).any (fun w => decide (w = v))))
    rw [List.filter_append]
    have hN0 : (dsVars dsN).filter
        (fun v => !((dsVars dsN).any (fun w => decide (w = v)))) = [] := by
      refine List.filter_eq_nil_iff.2 ?_
      intro v hv
      have hany : (dsVars dsN).any (fun w => decide (w = v)) = true :=
        List.any_eq_true.2 ⟨v, hv, by simp⟩
      simp [hany]
    have hFF : ((dsVars dsO).filter
        (fun v => !((dsVars dsN).any (fun w => decide (w = v))))).filter
          (fun v => !((dsVars dsN).any (fun w => decide (w = v)))) =
        (dsVars dsO).filter
          (fun v => !((dsVars dsN).any (fun w => decide (w = v)))) := by
      refine List.filter_eq_self.2 ?_
      intro v hv
      exact (List.mem_filter.1 hv).2
    rw [hN0, hFF, List.nil_append]

theorem combineFirst_absorb {dsN dsO : DS} (hN : (dsTimes dsN).Nodup)
    (hO : (dsTimes dsO).Nodup) :
    combineFirst dsN (combineFirst dsN dsO) = combineFirst dsN dsO := by
  conv_lhs => rw [combineFirst]
  rw [unionTimes_absorb hN hO, unionVars_absorb]
  conv_rhs => rw [combineFirst]
  refine List.map_congr_left ?_
  intro t _
  refine congrArg (fun fl => (t, fl)) (List.map_congr_left ?_)
  intro v _
  rw [dsValue_combineFirst, orElseVal_absorb]

theorem combineFirst_self_sorted {dsN : DS} (hN : (dsTimes dsN).Nodup)
    (hD : dsDense dsN) : combineFirst dsN (sortDS dsN) = sortDS dsN := by
  have hSperm : (sortDS dsN).Perm dsN := sortDS_perm dsN
  have hTperm : (dsTimes (sortDS dsN)).Perm (dsTimes dsN) := hSperm.map _
  have hTnod : (dsTimes (sortDS dsN)).Nodup := hTperm.nodup_iff.2 hN
  have hut : unionTimes dsN (sortDS dsN) = dsTimes (sortDS dsN) := by
    have hfil : (dsTimes (sortDS dsN)).filter
        (fun t => !((dsTimes dsN).any (fun u => decide (u = t)))) = [] := by
      refine List.filter_eq_nil_iff.2 ?_
      intro t ht
      have htN : t ∈ dsTimes dsN := hTperm.mem_iff.1 ht
      have hany : (dsTimes dsN).any (fun u => decide (u = t)) = true :=
        List.any_eq_true.2 ⟨t, htN, by simp⟩
      simp [hany]
    show List.insertionSort tsLe (dsTimes dsN ++ (dsTimes (sortDS dsN)).filter
        (fun t => !((dsTimes dsN).any (fun u => decide (u = t))))) =
      dsTimes (sortDS dsN)
    rw [hfil, List.append_nil]
    refine ts_sorted_eq ?_ (List.sorted_insertionSort _ _) ?_ ?_
    · exact (List.perm_insertionSort _ _).trans hTperm.symm
    · exact (List.pairwise_map).2 ((sortDS_sorted dsN).imp (fun h => h))
    · exact ((List.perm_insertionSort _ _).nodup_iff).2 hN
  have huv : unionVars dsN (sortDS dsN) = dsVars dsN := by
    have hfil : (dsVars (sortDS dsN)).filter
        (fun v => !((dsVars dsN).any (fun w => decide (w = v)))) = [] := by
      refine List.filter_eq_nil_iff.2 ?_
      intro v hv
      have hvN : v ∈ dsVars dsN := by
        have h1 := List.mem_dedup.1 hv
        obtain ⟨p, hp, hkey⟩ := List.mem_flatMap.1 h1
        exact List.mem_dedup.2 (List.mem_flatMap.2 ⟨p, hSperm.mem_iff.1 hp, hkey⟩)
      have hany : (dsVars dsN).any (fun w => decide (w = v)) = true :=
        List.any_eq_true.2 ⟨v, hvN, by simp⟩
      simp [hany]
    show dsVars dsN ++ (dsVars (sortDS dsN)).filter
        (fun v => !((dsVars dsN).any (fun w => decide (w = v)))) = dsVars dsN
    rw [hfil, List.append_nil]
  conv_lhs => rw [combineFirst]
  rw [hut, huv]
  have hrow : ∀ t ∈ dsTimes (sortDS dsN),
      (dsVars dsN).map (fun v =>
        (v, orElseVal (dsValue dsN t v) (dsValue (sortDS dsN) t v))) =
        (rowOf (sortDS dsN) t).getD [] := by
    intro t ht
    have htN : t ∈ dsTimes dsN := hTperm.mem_iff.1 ht
    obtain ⟨p, hp, hpt⟩ := List.mem_map.1 htN
    have hmem0 : (p.1, p.2) ∈ dsN := hp
    have hmem : (t, p.2) ∈ dsN := by rw [← hpt]; exact hmem0
    have hrN : rowOf dsN t = some p.2 := (rowOf_eq_some_iff hN).2 hmem
    have hrS : rowOf (sortDS dsN) t = some p.2 := by
      rw [rowOf_perm hSperm hTnod t]
      exact hrN
    have hvalN : ∀ v, dsValue dsN t v = fieldVal p.2 v := by
      intro v
      rw [dsValue, hrN]
      rfl
    have hvalS : ∀ v, dsValue (sortDS dsN) t v = fieldVal p.2 v := by
      intro v
      rw [dsValue, hrS]
      rfl
    have hkeys : p.2.map (fun q => q.1) = dsVars dsN := hD p hp
    have hknod : (p.2.map (fun q => q.1)).Nodup := by
      rw [hkeys]; exact List.nodup_dedup _
    calc (dsVars dsN).map (fun v =>
          (v, orElseVal (dsValue dsN t v) (dsValue (sortDS dsN) t v)))
        = (dsVars dsN).map (fun v => (v, fieldVal p.2 v)) := by
          refine List.map_congr_left ?_
          intro v _
          rw [hvalN, hvalS, orElseVal_self]
      _ = (p.2.map (fun q => q.1)).map (fun v => (v, fieldVal p.2 v)) := by rw [hkeys]
      _ = p.2 := assoc_reconstruct hknod
      _ = (rowOf (sortDS dsN) t).getD [] := by rw [hrS]; rfl
  calc (dsTimes (sortDS dsN)).map (fun t =>
        (t, (dsVars dsN).map (fun v =>
          (v, orElseVal (dsValue dsN t v) (dsValue (sortDS dsN) t v)))))
      = (dsTimes (sortDS dsN)).map (fun t => (t, (rowOf (sortDS dsN) t).getD [])) := by
        refine List.map_congr_left ?_
        intro t ht
        exact congrArg (fun fl => (t, fl)) (hrow t ht)
    _ = sortDS dsN := (ds_eq_mapTimes hTnod).symm

/-- Idempotence of `save_daily`: writing the same (duplicate-free, dense)
daily dataset twice leaves the stored file identical to writing it once,
and the second call returns 0 new days. -/
theorem saveDaily_idem {file : Option DS} {dsNew : DS}
    (hN : (dsTimes dsNew).Nodup) (hD : dsDense dsNew)
    (hfile : ∀ ds0, file = some ds0 → (dsTimes ds0).Nodup) :
    saveDaily (saveDaily file dsNew).1 dsNew = ((saveDaily file dsNew).1, 0) := by
  cases file with
  | some dsE =>
      have hE := hfile dsE rfl
      have h1 : (saveDaily (some dsE) dsNew).1 = some (combineFirst dsNew dsE) := by
        show some (sortDS (combineFirst dsNew dsE)) = _
        rw [sortDS_combineFirst]
      rw [h1]
      show (some (sortDS (combineFirst dsNew (combineFirst dsNew dsE))),
        (combineFirst dsNew (combineFirst dsNew dsE)).length -
          (combineFirst dsNew dsE).length) = _
      rw [combineFirst_absorb hN hE, sortDS_combineFirst, Nat.sub_self]
  | none =>
      show (some (sortDS (combineFirst dsNew (sortDS dsNew))),
        (combineFirst dsNew (sortDS dsNew)).length - (sortDS dsNew).length) = _
      rw [combineFirst_self_sorted hN hD]
      have hss : sortDS (sortDS dsNew) = sortDS dsNew :=
        List.Sorted.insertionSort_eq (sortDS_sorted dsNew)
      rw [hss, Nat.sub_self]
      rfl

/-- Every dataset written by `save_daily` is sorted by time with no
duplicate time coordinate. -/
theorem saveDaily_inv {file : Option DS} {dsNew : DS}
    (hN : (dsTimes dsNew).Nodup)
    (hfile : ∀ ds0, file = some ds0 → (dsTimes ds0).Nodup) :
    ((saveDaily file dsNew).1.getD []).Sorted dsRowLe ∧
      (dsTimes ((saveDaily file dsNew).1.getD [])).Nodup := by
  cases file with
  | none =>
      refine ⟨sortDS_sorted _, ?_⟩
      have hp : (dsTimes (sortDS dsNew)).Perm (dsTimes dsNew) := (sortDS_perm _).map _
      exact hp.nodup_iff.2 hN
  | some dsE =>
      have hE := hfile dsE rfl
      show (sortDS (combineFirst dsNew dsE)).Sorted dsRowLe ∧
        (dsTimes (sortDS (combineFirst dsNew dsE))).Nodup
      refine ⟨sortDS_sorted _, ?_⟩
      have hp : (dsTimes (sortDS (combineFirst dsNew dsE))).Perm
          (dsTimes (combineFirst dsNew dsE)) := (sortDS_perm _).map _
      refine hp.nodup_iff.2 ?_
      rw [combineFirst_times]
      exact unionTimes_nodup hN hE

/-! ## append_records toplevel lemmas -/

/-- The good rows of the batch carry pairwise-distinct timestamps. -/
def goodDistinct (records : List RawRecord) : Prop :=
  ((goodRows records).map (fun r => r.ts)).Nodup

theorem batchMonths_nodup (rows : List SRow) : (batchMonths rows).Nodup :=
  ((List.perm_insertionSort natLe _).nodup_iff).2 (List.nodup_dedup _)

theorem mem_batchMonths {rows : List SRow} {r : SRow} (hr : r ∈ rows) :
    monthIdx r.ts ∈ batchMonths rows := by
  unfold batchMonths
  rw [List.mem_insertionSort]
  exact List.mem_dedup.2 (List.mem_map.2 ⟨r, hr, rfl⟩)

theorem appendRecords_inv {d : Dir} {records : List RawRecord}
    (hinv : DirInv d) (hdist : goodDistinct records) :
    DirInv (appendRecords d records).1 := by
  unfold appendRecords
  split_ifs with h0 h1 h2
  · exact hinv
  · exact hinv
  · exact hinv
  · exact appendLoop_inv hdist _ _ hinv

/-- A complete second-call characterisation of `append_records`: repeating
a call leaves the directory exactly as the first call left it, returns 0
when the first call succeeded, and raises the same error when it failed. -/
theorem appendRecords_idem (d : Dir) (records : List RawRecord) :
    appendRecords (appendRecords d records).1 records =
      ((appendRecords d records).1,
        match (appendRecords d records).2 with
        | Except.ok _ => Except.ok 0
        | Except.error e => Except.error e) := by
  by_cases h0 : records.isEmpty = true
  · simp [appendRecords, h0]
  · by_cases h1 : records.all (fun r => decide (r.ts = TField.absent)) = true
    · simp [appendRecords, h0, h1]
    · by_cases h2 : records.any (fun r => decide (r.ts = TField.bad)) = true
      · simp [appendRecords, h0, h1, h2]
      · have hloop := @appendLoop_noop (goodRows records)
          (batchMonths (goodRows records))
          ((appendLoop (d.getD []) (batchMonths (goodRows records)) (goodRows records)).1)
          (fun μ hμ => appendLoop_stores _ _ μ hμ (batchMonths_nodup _))
        simp [appendRecords, h0, h1, h2, hloop]

/-! ## Claim-specific helpers -/

/-- The rows of a partition carrying a given timestamp. -/
def rowsAt (p : Part) (t : TS) : Part := p.filter (fun r => decide (r.ts = t))

theorem rowsAt_nil {p : Part} {t : TS} (h : t ∉ p.map (fun r => r.ts)) :
    rowsAt p t = [] := by
  refine List.filter_eq_nil_iff.2 ?_
  intro r hr hrt
  have : r.ts = t := by simpa using hrt
  exact h (List.mem_map.2 ⟨r, hr, this⟩)

theorem rowsAt_singleton {ex : Part} (hU : partUnique ex) {t : TS}
    (ht : t ∈ ex.map (fun r => r.ts)) : ∃ r0, rowsAt ex t = [r0] ∧ r0.ts = t := by
  induction ex with
  | nil => simp at ht
  | cons r rest ih =>
      have hU2 : partUnique rest := (List.nodup_cons.1 hU).2
      by_cases hr : r.ts = t
      · refine ⟨r, ?_, hr⟩
        have hrest : rowsAt rest t = [] := by
          refine rowsAt_nil ?_
          intro hmem
          have hmem2 : (fun x => x.ts) r ∈ List.map (fun x => x.ts) rest := by
            show r.ts ∈ _
            rw [hr]
            exact hmem
          exact (List.nodup_cons.1 hU).1 hmem2
        show List.filter (fun x => decide (x.ts = t)) (r :: rest) = [r]
        rw [List.filter_cons, if_pos (by simp [hr])]
        rw [show List.filter (fun x => decide (x.ts = t)) rest = ([] : Part) from hrest]
      · have ht2 : t ∈ rest.map (fun x => x.ts) := by
          rcases List.mem_map.1 ht with ⟨x, hx, hxe⟩
          rcases List.mem_cons.1 hx with rfl | hx2
          · exact absurd hxe hr
          · exact List.mem_map.2 ⟨x, hx2, hxe⟩
        obtain ⟨r0, h0, h0t⟩ := ih hU2 ht2
        refine ⟨r0, ?_, h0t⟩
        show List.filter (fun x => decide (x.ts = t)) (r :: rest) = [r0]
        rw [List.filter_cons, if_neg (by simp [hr])]
        rw [show List.filter (fun x => decide (x.ts = t)) rest = [r0] from h0]

theorem rowsAt_perm {p q : Part} (h : p.Perm q) (t : TS) :
    (rowsAt p t).Perm (rowsAt q t) := h.filter _

theorem mergeMonth_rowsAt_existing {fs : Files} {rows : List SRow} {μ : Nat}
    {ex : Part} {t : TS} (hg : getFile fs μ = some ex) (hU : partUnique ex)
    (ht : t ∈ ex.map (fun r => r.ts)) :
    rowsAt ((getFile (mergeMonth fs rows μ).1 μ).getD []) t = rowsAt ex t := by
  unfold mergeMonth
  simp only [hg]
  split_ifs with hemp
  · show rowsAt ((getFile fs μ).getD []) t = rowsAt ex t
    rw [hg]
    rfl
  · rw [getFile_updateFile_self]
    obtain ⟨r0, hr0, hr0t⟩ := rowsAt_singleton hU ht
    have hfr : rowsAt ((monthGroup rows μ).filter
        (fun r => !(ex.any (fun x => decide (x.ts = r.ts))))) t = [] := by
      refine rowsAt_nil ?_
      intro hmem
      obtain ⟨x, hx, hxe⟩ := List.mem_map.1 hmem
      have hnex := (mem_freshFilter hx).2
      obtain ⟨y, hy, hye⟩ := List.mem_map.1 ht
      exact hnex y hy (by rw [hye, ← hxe])
    have hperm : (rowsAt (sortRows (ex ++ (monthGroup rows μ).filter
        (fun r => !(ex.any (fun x => decide (x.ts = r.ts)))))) t).Perm [r0] := by
      refine (rowsAt_perm (sortRows_perm _) t).trans ?_
      show (rowsAt (ex ++ _) t).Perm [r0]
      rw [show rowsAt (ex ++ (monthGroup rows μ).filter
          (fun r => !(ex.any (fun x => decide (x.ts = r.ts))))) t =
        rowsAt ex t ++ rowsAt ((monthGroup rows μ).filter
          (fun r => !(ex.any (fun x => decide (x.ts = r.ts))))) t from
        List.filter_append _ _]
      rw [hr0, hfr, List.append_nil]
    show rowsAt (sortRows (ex ++ (monthGroup rows μ).filter
        (fun r => !(ex.any (fun x => decide (x.ts = r.ts)))))) t = rowsAt ex t
    rw [List.perm_singleton.1 hperm, hr0]

theorem appendLoop_rowsAt {rows : List SRow} :
    ∀ (ms : List Nat) (fs : Files) (μ : Nat) (t : TS) (ex : Part),
      ms.Nodup → getFile fs μ = some ex → partUnique ex →
      t ∈ ex.map (fun r => r.ts) →
      rowsAt ((getFile (appendLoop fs ms rows).1 μ).getD []) t = rowsAt ex t := by
  intro ms
  induction ms with
  | nil =>
      intro fs μ t ex _ hg _ _
      show rowsAt ((getFile fs μ).getD []) t = rowsAt ex t
      rw [hg]
      rfl
  | cons ν rest ih =>
      intro fs μ t ex hnd hg hU ht
      by_cases hμν : μ = ν
      · subst hμν
        have hrest : μ ∉ rest := (List.nodup_cons.1 hnd).1
        have h1 : getFile (appendLoop (mergeMonth fs rows μ).1 rest rows).1 μ =
            getFile (mergeMonth fs rows μ).1 μ :=
          appendLoop_getFile_not_mem _ _ μ hrest
        show rowsAt ((getFile (appendLoop (mergeMonth fs rows μ).1 rest rows).1 μ).getD []) t
          = rowsAt ex t
        rw [h1]
        exact mergeMonth_rowsAt_existing hg hU ht
      · have h1 : getFile (mergeMonth fs rows ν).1 μ = getFile fs μ :=
          mergeMonth_getFile_ne hμν
        exact ih _ μ t ex (List.nodup_cons.1 hnd).2 (h1.trans hg) hU ht

/-- Every parsed-timestamp row of a successful append ends up in the
partition of its own month. -/
theorem appendRecords_stores_good {d : Dir} {records : List RawRecord}
    {fs1 : Files} {n : Nat}
    (h : appendRecords d records = (some fs1, Except.ok n)) :
    ∀ r ∈ goodRows records, ∃ p, getFile fs1 (monthIdx r.ts) = some p ∧
      r.ts ∈ p.map (fun x => x.ts) := by
  unfold appendRecords at h
  split_ifs at h with h0 h1 h2
  · intro r hr
    rw [List.isEmpty_iff.1 h0] at hr
    simp [goodRows] at hr
  · exact absurd (congrArg Prod.snd h) (by simp)
  · exact absurd (congrArg Prod.snd h) (by simp)
  · have hfs : fs1 = (appendLoop (d.getD [])
        (batchMonths (goodRows records)) (goodRows records)).1 := by
      have h2 := congrArg Prod.fst h
      simp at h2
      exact h2.symm
    intro r hr
    obtain ⟨p, hp, hall⟩ := appendLoop_stores (batchMonths (goodRows records))
      (d.getD []) (monthIdx r.ts) (mem_batchMonths hr) (batchMonths_nodup _)
    refine ⟨p, by rw [hfs]; exact hp, ?_⟩
    refine hall r ?_
    exact List.mem_filter.2 ⟨hr, by simp⟩

/-- `monthOK` alone (no uniqueness needed) is preserved by the merge loop. -/
def FilesMonthOK (fs : Files) : Prop := ∀ e ∈ fs, monthOK e.1 e.2

theorem mergeMonth_filesMonthOK {fs : Files} {rows : List SRow} {μ : Nat}
    (h : FilesMonthOK fs) : FilesMonthOK (mergeMonth fs rows μ).1 := by
  unfold mergeMonth
  cases hg : getFile fs μ with
  | none =>
      simp only [hg]
      intro e he
      rcases mem_updateFile he with rfl | hmem
      · exact sortRows_monthOK (fun r hr => (monthGroup_sub hr).2)
      · exact h e hmem
  | some existing =>
      simp only [hg]
      split_ifs with hemp
      · exact h
      · intro e he
        rcases mem_updateFile he with rfl | hmem
        · refine sortRows_monthOK ?_
          intro r hr
          rcases List.mem_append.1 hr with hr | hr
          · exact h (μ, existing) (getFile_mem hg) r hr
          · exact (monthGroup_sub (mem_freshFilter hr).1).2
        · exact h e hmem

theorem appendLoop_filesMonthOK {rows : List SRow} :
    ∀ (ms : List Nat) (fs : Files), FilesMonthOK fs →
      FilesMonthOK (appendLoop fs ms rows).1 := by
  intro ms
  induction ms with
  | nil => intro fs h; exact h
  | cons ν rest ih =>
      intro fs h
      exact ih _ (mergeMonth_filesMonthOK h)

theorem appendRecords_monthOK {d : Dir} {records : List RawRecord}
    {fs1 : Files} {n : Nat}
    (hm : FilesMonthOK (d.getD []))
    (h : appendRecords d records = (some fs1, Except.ok n)) :
    FilesMonthOK fs1 := by
  unfold appendRecords at h
  split_ifs at h with h0 h1 h2
  · have hd : d = some fs1 := congrArg Prod.fst h
    rw [hd] at hm
    exact hm
  · exact absurd (congrArg Prod.snd h) (by simp)
  · exact absurd (congrArg Prod.snd h) (by simp)
  · have hfs : fs1 = (appendLoop (d.getD [])
        (batchMonths (goodRows records)) (goodRows records)).1 := by
      have h2 := congrArg Prod.fst h
      simp at h2
      exact h2.symm
    rw [hfs]
    exact appendLoop_filesMonthOK _ _ hm

/-- Folding a sequence of appends from a fresh (absent) directory. -/
theorem foldl_append_inv :
    ∀ (batches : List (List RawRecord)) (d : Dir), DirInv d →
      (∀ b ∈ batches, goodDistinct b) →
      DirInv (batches.foldl (fun d2 b => (appendRecords d2 b).1) d) := by
  intro batches
  induction batches with
  | nil => intro d h _; exact h
  | cons b rest ih =>
      intro d h hb
      exact ih _ (appendRecords_inv h (hb b (List.mem_cons_self _ _)))
        (fun b2 hb2 => hb b2 (List.mem_cons_of_mem _ hb2))

/-- Invariant of the netcdf store file under repeated `save_daily`. -/
def NcInv (f : Option DS) : Prop :=
  ∀ ds0, f = some ds0 → ds0.Sorted dsRowLe ∧ (dsTimes ds0).Nodup

theorem saveDaily_ncInv {f : Option DS} {dsNew : DS}
    (hN : (dsTimes dsNew).Nodup) (h : NcInv f) : NcInv (saveDaily f dsNew).1 := by
  intro ds0 h0
  have hinv := saveDaily_inv hN (fun ds1 h1 => (h ds1 h1).2)
  cases f with
  | none =>
      have : (saveDaily (none : Option DS) dsNew).1 = some (sortDS dsNew) := rfl
      rw [this] at h0
      injection h0 with h0e
      rw [← h0e]
      simpa using hinv
  | some dsE =>
      have : (saveDaily (some dsE) dsNew).1 =
          some (sortDS (combineFirst dsNew dsE)) := rfl
      rw [this] at h0
      injection h0 with h0e
      rw [← h0e]
      simpa using hinv

theorem foldl_saveDaily_inv :
    ∀ (dss : List DS) (f : Option DS), NcInv f →
      (∀ ds ∈ dss, (dsTimes ds).Nodup) →
      NcInv (dss.foldl (fun f2 ds => (saveDaily f2 ds).1) f) := by
  intro dss
  induction dss with
  | nil => intro f h _; exact h
  | cons ds rest ih =>
      intro f h hds
      exact ih _ (saveDaily_ncInv (hds ds (List.mem_cons_self _ _)) h)
        (fun ds2 hd2 => hds ds2 (List.mem_cons_of_mem _ hd2))

/-! ## Decidability instances for concrete evaluation -/

def exceptToSum : Except AppendError Nat → AppendError ⊕ Nat
  | Except.error e => Sum.inl e
  | Except.ok n => Sum.inr n

theorem exceptToSum_inj : Function.Injective exceptToSum := by
  intro a b h
  cases a <;> cases b <;> simp [exceptToSum] at h <;> simp [h]

instance : DecidableEq (Except AppendError Nat) := fun a b =>
  decidable_of_iff (exceptToSum a = exceptToSum b)
    ⟨fun h => exceptToSum_inj h, fun h => by rw [h]⟩

instance (p : Part) : Decidable (partUnique p) := by
  unfold partUnique; infer_instance

instance (p : Part) : Decidable (partSorted p) := by
  unfold partSorted List.Sorted; infer_instance

instance (μ : Nat) (p : Part) : Decidable (monthOK μ p) := by
  unfold monthOK; infer_instance

instance (fs : Files) : Decidable (FilesInv fs) := by
  unfold FilesInv; infer_instance

instance (d : Dir) : Decidable (DirInv d) := by
  unfold DirInv; infer_instance

instance (records : List RawRecord) : Decidable (goodDistinct records) := by
  unfold goodDistinct; infer_instance

instance (ds : DS) : Decidable (dsDense ds) := by
  unfold dsDense; infer_instance

instance (fs : Files) : Decidable (FilesMonthOK fs) := by
  unfold FilesMonthOK; infer_instance

/-! ## Concrete instants for the examples -/

/-- 2023-01-31T23:00Z. -/
def tsJanEnd : TS := ⟨⟨2023, 1, 31, 82800⟩, by decide⟩

/-- 2023-02-01T01:00Z. -/
def tsFebStart : TS := ⟨⟨2023, 2, 1, 3600⟩, by decide⟩

/-- 2023-01-15T00:00Z. -/
def tsJanMid : TS := ⟨⟨2023, 1, 15, 0⟩, by decide⟩

/-- 2023-03-01T00:00Z. -/
def tsMar1 : TS := ⟨⟨2023, 3, 1, 0⟩, by decide⟩

/-- 2023-03-02T00:00Z. -/
def tsMar2 : TS := ⟨⟨2023, 3, 2, 0⟩, by decide⟩

/-! ## Claim C1 -/

/-- Claim C1, counterexample: an append whose incoming batch contains two
records with the same timestamp (2023-01-31T23:00Z) stores BOTH rows in
the 2023-01 partition — `append_records` deduplicates only against the
existing file, never inside the batch, so "last record in the batch wins"
does not happen and the stored partition has a duplicate timestamp. -/
theorem c1_counterexample :
    ((getFile (((appendRecords none
        [⟨TField.good tsJanEnd, [("temp", some 1)]⟩,
         ⟨TField.good tsJanEnd, [("temp", some 2)]⟩]).1).getD []) 24276).getD []).length = 2 ∧
    ¬ partUnique ((getFile (((appendRecords none
        [⟨TField.good tsJanEnd, [("temp", some 1)]⟩,
         ⟨TField.good tsJanEnd, [("temp", some 2)]⟩]).1).getD []) 24276).getD []) := by
  decide

/-- Claim C1 (amended): after any sequence of `append_records` calls from a
fresh directory, every stored Parquet partition has pairwise-distinct
timestamps and is sorted ascending (and holds only rows of its own month),
PROVIDED every batch's parsed timestamps are pairwise distinct; and every
NetCDF file produced by a sequence of `save_daily` calls whose incoming
datasets have duplicate-free time coordinates is sorted by time with
unique time coordinates.  The proviso is forced by the counterexample: an
intra-batch duplicate timestamp is stored twice by the Parquet store. -/
theorem c1_amended
    (batches : List (List RawRecord)) (hb : ∀ b ∈ batches, goodDistinct b)
    (dss : List DS) (hds : ∀ ds ∈ dss, (dsTimes ds).Nodup) :
    DirInv (batches.foldl (fun d b => (appendRecords d b).1) none) ∧
    NcInv (dss.foldl (fun f ds => (saveDaily f ds).1) none) := by
  constructor
  · refine foldl_append_inv batches none ?_ hb
    intro e he
    simp at he
  · refine foldl_saveDaily_inv dss none ?_ hds
    intro ds0 h0
    simp at h0

/-- Witness for the amended C1 at a concrete one-batch history. -/
theorem c1_amended_witness :
    ((∀ b ∈ [[(⟨TField.good tsJanEnd, [("temp", some 1)]⟩ : RawRecord)]],
        goodDistinct b) ∧
     (∀ ds ∈ ([[(tsJanEnd, [("temp", some 10)])]] : List DS),
        (dsTimes ds).Nodup)) ∧
    (DirInv ([[(⟨TField.good tsJanEnd, [("temp", some 1)]⟩ : RawRecord)]].foldl
        (fun d b => (appendRecords d b).1) none) ∧
     NcInv (([[(tsJanEnd, [("temp", some 10)])]] : List DS).foldl
        (fun f ds => (saveDaily f ds).1) none)) :=
  ⟨⟨by decide, by decide⟩,
    c1_amended _ (by decide) _ (by decide)⟩

/-! ## Claim C2 -/

/-- Claim C2, counterexample: merging an incoming record at an existing
timestamp does NOT replace the whole stored row.  Parquet: the incoming
row (temp=12) is dropped and the stored row keeps temp=10.  NetCDF:
`combine_first` is column-wise — the incoming temp=12 wins, but the field
`hum`, absent from the incoming record, keeps its old value 5 instead of
becoming missing. -/
theorem c2_counterexample :
    (appendRecords (some [(24276, [⟨tsJanEnd, [("temp", some 10)]⟩])])
        [⟨TField.good tsJanEnd, [("temp", some 12)]⟩]).1 =
      some [(24276, [⟨tsJanEnd, [("temp", some 10)]⟩])] ∧
    dsValue ((saveDaily (some [(tsJanEnd, [("temp", some 10), ("hum", some 5)])])
        [(tsJanEnd, [("temp", some 12)])]).1.getD []) tsJanEnd "hum" = some 5 ∧
    dsValue ((saveDaily (some [(tsJanEnd, [("temp", some 10), ("hum", some 5)])])
        [(tsJanEnd, [("temp", some 12)])]).1.getD []) tsJanEnd "temp" = some 12 := by
  decide

/-- Claim C2 (amended): on a timestamp conflict the Parquet store keeps the
existing row unchanged (the incoming duplicate row is dropped before the
concat), while the NetCDF store merges column-wise: at every time and
variable the stored value is the incoming value when non-null and the
previously stored value otherwise (so fields absent from the incoming
record keep their old values; nothing is reset to missing). -/
theorem c2_amended :
    (∀ (d : Dir) (records : List RawRecord) (fs1 : Files) (n : Nat),
      DirInv d → appendRecords d records = (some fs1, Except.ok n) →
      ∀ (μ : Nat) (t : TS),
        t ∈ ((getFile (d.getD []) μ).getD []).map (fun r => r.ts) →
        rowsAt ((getFile fs1 μ).getD []) t =
          rowsAt ((getFile (d.getD []) μ).getD []) t) ∧
    (∀ (dsE dsN : DS) (t : TS) (v : String),
      dsValue ((saveDaily (some dsE) dsN).1.getD []) t v =
        orElseVal (dsValue dsN t v) (dsValue dsE t v)) := by
  constructor
  · intro d records fs1 n hinv h μ t ht
    cases hg : getFile (d.getD []) μ with
    | none =>
        rw [hg] at ht
        simp at ht
    | some ex =>
        rw [hg] at ht
        have hU : partUnique ex := (hinv (μ, ex) (getFile_mem hg)).1
        unfold appendRecords at h
        split_ifs at h with h0 h1 h2
        · have hd : d = some fs1 := congrArg Prod.fst h
          have hg2 : getFile fs1 μ = some ex := by
            rw [hd] at hg
            exact hg
          rw [hg2]
        · exact absurd (congrArg Prod.snd h) (by simp)
        · exact absurd (congrArg Prod.snd h) (by simp)
        · have hfs : fs1 = (appendLoop (d.getD [])
              (batchMonths (goodRows records)) (goodRows records)).1 := by
            have he := congrArg Prod.fst h
            simp at he
            exact he.symm
          rw [hfs]
          exact appendLoop_rowsAt _ (d.getD []) μ t ex
            (batchMonths_nodup _) hg hU ht
  · intro dsE dsN t v
    show dsValue (sortDS (combineFirst dsN dsE)) t v = _
    rw [sortDS_combineFirst]
    exact dsValue_combineFirst dsN dsE t v

/-- Witness for the amended C2: a successful concrete append over an
existing partition leaves the conflicting timestamp's stored row intact. -/
theorem c2_amended_witness :
    (DirInv (some [(24276, [⟨tsJanEnd, [("temp", some 10)]⟩])] : Dir) ∧
     appendRecords (some [(24276, [⟨tsJanEnd, [("temp", some 10)]⟩])])
        [⟨TField.good tsJanMid, [("temp", some 7)]⟩] =
       (some [(24276, [⟨tsJanMid, [("temp", some 7)]⟩,
                       ⟨tsJanEnd, [("temp", some 10)]⟩])], Except.ok 1) ∧
     tsJanEnd ∈ (((getFile ((some [(24276, [⟨tsJanEnd, [("temp", some 10)]⟩])] : Dir).getD [])
         24276).getD []).map (fun r => r.ts))) ∧
    rowsAt ((getFile [(24276, [⟨tsJanMid, [("temp", some 7)]⟩,
                               ⟨tsJanEnd, [("temp", some 10)]⟩])] 24276).getD []) tsJanEnd =
      rowsAt ((getFile ((some [(24276, [⟨tsJanEnd, [("temp", some 10)]⟩])] : Dir).getD [])
        24276).getD []) tsJanEnd :=
  ⟨⟨by decide, by decide, by decide⟩,
    c2_amended.1 (some [(24276, [⟨tsJanEnd, [("temp", some 10)]⟩])])
      [⟨TField.good tsJanMid, [("temp", some 7)]⟩]
      [(24276, [⟨tsJanMid, [("temp", some 7)]⟩, ⟨tsJanEnd, [("temp", some 10)]⟩])] 1
      (by decide) (by decide) 24276 tsJanEnd (by decide)⟩

/-! ## Claim C3 -/

/-- Claim C3, counterexample: a merge-write performs a direct write of the
canonical partition path and no rename whatsoever, so "the rename is the
only mutation of the canonical path" is false: the trace of a concrete
`append_records` call contains `write(2023-01)` and not a single rename. -/
theorem c3_counterexample :
    FSOp.writeOp 24276 ∈
      appendTrace none [⟨TField.good tsJanEnd, [("temp", some 1)]⟩] ∧
    (appendTrace none [⟨TField.good tsJanEnd, [("temp", some 1)]⟩]).all
      (fun op => !op.isRen) = true := by
  decide

/-- Claim C3 (amended): neither store uses a temporary file or a rename.
`append_records` writes each merged month directly to its canonical path
(`to_parquet(path)`), and `save_daily` writes the location file in place
(`to_netcdf(path, mode="w")`): no operation in either write-path trace is
a rename, and the save_daily trace is exactly an optional read followed by
one direct write of the canonical path.  A failed or interrupted write can
therefore leave a partially written file at the canonical path. -/
theorem c3_amended :
    (∀ (d : Dir) (records : List RawRecord) (op : FSOp),
      op ∈ appendTrace d records → op.isRen = false) ∧
    (∀ (file : Option DS) (op : FSOp),
      op ∈ saveDailyTrace file → op.isRen = false) ∧
    saveDailyTrace (some []) = [FSOp.readOp 0, FSOp.writeOp 0] := by
  have hmm : ∀ (fs : Files) (rows : List SRow) (μ : Nat) (op : FSOp),
      op ∈ mergeMonthTrace fs rows μ → op.isRen = false := by
    intro fs rows μ op hop
    unfold mergeMonthTrace at hop
    cases hg : getFile fs μ with
    | none =>
        rw [hg] at hop
        simp at hop
        rw [hop]
        rfl
    | some ex =>
        rw [hg] at hop
        rcases List.mem_cons.1 hop with rfl | hop2
        · rfl
        · split_ifs at hop2 with he
          · simp at hop2
          · simp at hop2
            rw [hop2]
            rfl
  have hloop : ∀ (ms : List Nat) (fs : Files) (rows : List SRow) (op : FSOp),
      op ∈ appendLoopTrace fs ms rows → op.isRen = false := by
    intro ms
    induction ms with
    | nil =>
        intro fs rows op hop
        simp [appendLoopTrace] at hop
    | cons ν rest ih =>
        intro fs rows op hop
        rcases List.mem_append.1 hop with h | h
        · exact hmm _ _ _ _ h
        · exact ih _ _ _ h
  refine ⟨?_, ?_, rfl⟩
  · intro d records op hop
    unfold appendTrace at hop
    split_ifs at hop with h0 h1 h2
    · simp at hop
    · simp at hop
      rw [hop]
      rfl
    · simp at hop
      rw [hop]
      rfl
    · rcases List.mem_cons.1 hop with rfl | hop2
      · rfl
      · exact hloop _ _ _ _ hop2
  · intro file op hop
    cases file with
    | none =>
        simp [saveDailyTrace] at hop
        rw [hop]
        rfl
    | some ds =>
        simp [saveDailyTrace] at hop
        rcases hop with rfl | rfl <;> rfl

/-- Witness for the amended C3 at a concrete trace element. -/
theorem c3_amended_witness :
    FSOp.mkdirOp ∈ appendTrace none [⟨TField.good tsJanEnd, [("temp", some 1)]⟩] ∧
    FSOp.mkdirOp.isRen = false :=
  ⟨by decide,
    c3_amended.1 none [⟨TField.good tsJanEnd, [("temp", some 1)]⟩]
      FSOp.mkdirOp (by decide)⟩

/-! ## Claim C4 -/

/-- Claim C4: appending the same batch twice, from any initial directory,
leaves the stored partitions identical to appending it once, makes
subsequent range reads identical, and the second call reports 0 appended
rows whenever the first succeeded; likewise `save_daily` of the same
(duplicate-free, dense) daily dataset twice leaves the stored file
identical and the second call reports 0 new days. -/
theorem c4_idempotent (d : Dir) (records : List RawRecord) (s e : TS)
    (file : Option DS) (dsNew : DS)
    (hN : (dsTimes dsNew).Nodup) (hD : dsDense dsNew)
    (hfile : ∀ ds0, file = some ds0 → (dsTimes ds0).Nodup) :
    (appendRecords (appendRecords d records).1 records).1 =
      (appendRecords d records).1 ∧
    readRange (appendRecords (appendRecords d records).1 records).1 s e =
      readRange (appendRecords d records).1 s e ∧
    (∀ n, (appendRecords d records).2 = Except.ok n →
      (appendRecords (appendRecords d records).1 records).2 = Except.ok 0) ∧
    saveDaily (saveDaily file dsNew).1 dsNew = ((saveDaily file dsNew).1, 0) := by
  have h := appendRecords_idem d records
  refine ⟨?_, ?_, ?_, saveDaily_idem hN hD hfile⟩
  · rw [h]
  · rw [h]
  · intro n hn
    rw [h, hn]

/-- Witness for C4 at a concrete batch and dataset. -/
theorem c4_idempotent_witness :
    ((dsTimes ([(tsJanEnd, [("temp", some 10)])] : DS)).Nodup ∧
     dsDense ([(tsJanEnd, [("temp", some 10)])] : DS)) ∧
    ((appendRecords (appendRecords none
        [⟨TField.good tsJanEnd, [("temp", some 1)]⟩]).1
        [⟨TField.good tsJanEnd, [("temp", some 1)]⟩]).1 =
      (appendRecords none [⟨TField.good tsJanEnd, [("temp", some 1)]⟩]).1 ∧
     readRange (appendRecords (appendRecords none
        [⟨TField.good tsJanEnd, [("temp", some 1)]⟩]).1
        [⟨TField.good tsJanEnd, [("temp", some 1)]⟩]).1 tsMar1 tsMar2 =
      readRange (appendRecords none
        [⟨TField.good tsJanEnd, [("temp", some 1)]⟩]).1 tsMar1 tsMar2 ∧
     (∀ n, (appendRecords none
        [⟨TField.good tsJanEnd, [("temp", some 1)]⟩]).2 = Except.ok n →
       (appendRecords (appendRecords none
        [⟨TField.good tsJanEnd, [("temp", some 1)]⟩]).1
        [⟨TField.good tsJanEnd, [("temp", some 1)]⟩]).2 = Except.ok 0) ∧
     saveDaily (saveDaily none [(tsJanEnd, [("temp", some 10)])]).1
        [(tsJanEnd, [("temp", some 10)])] =
       ((saveDaily none [(tsJanEnd, [("temp", some 10)])]).1, 0)) :=
  ⟨⟨by decide, by decide⟩,
    c4_idempotent none [⟨TField.good tsJanEnd, [("temp", some 1)]⟩] tsMar1 tsMar2
      none [(tsJanEnd, [("temp", some 10)])] (by decide) (by decide)
      (fun ds0 h0 => absurd h0 (by simp))⟩

/-! ## Claim C5 -/

/-- Modelled from the spec: "`new_rows` = count of timestamps present in
incoming but absent from the pre-merge existing set" — the number the
return value of `append_records` is documented to report
("戻り値: 追記したレコード数"). -/
def specNewRows (ex : Part) (rows : List SRow) : Nat :=
  (((rows.map (fun r => r.ts)).dedup).filter
    (fun t => !(ex.any (fun x => decide (x.ts = t))))).length

/-- Claim C5, code bug: with an existing partition holding 2023-01-31T23:00Z
and an incoming batch of two records (one at that same timestamp, one new
at 2023-01-15), `append_records` returns 2 — `total += len(group)` counts
the whole month group — although only one row was new and appended: the
merged partition grew from 1 row to 2, and the spec's count of incoming
timestamps absent from the existing set is 1.  This contradicts the
function's own docstring ("number of appended records"). -/
theorem c5_return_count :
    (appendRecords (some [(24276, [⟨tsJanEnd, [("temp", some 10)]⟩])])
        [⟨TField.good tsJanEnd, [("temp", some 12)]⟩,
         ⟨TField.good tsJanMid, [("temp", some 7)]⟩]).2 = Except.ok 2 ∧
    specNewRows [⟨tsJanEnd, [("temp", some 10)]⟩]
      (goodRows [⟨TField.good tsJanEnd, [("temp", some 12)]⟩,
                 ⟨TField.good tsJanMid, [("temp", some 7)]⟩]) = 1 ∧
    ((getFile (((appendRecords (some [(24276, [⟨tsJanEnd, [("temp", some 10)]⟩])])
        [⟨TField.good tsJanEnd, [("temp", some 12)]⟩,
         ⟨TField.good tsJanMid, [("temp", some 7)]⟩]).1).getD []) 24276).getD []).length = 2 := by
  decide

/-! ## Claim C6 -/

/-- Claim C6, counterexample: the Parquet `read_range` returns the very same
empty frame whether no partition exists at all (missing directory) or
partitions exist but hold no rows inside the window, so its caller cannot
distinguish "never collected" from "collected but empty range". -/
theorem c6_counterexample :
    readRange none tsMar1 tsMar2 =
      readRange (some [(24276, [⟨tsJanEnd, [("temp", some 1)]⟩])]) tsMar1 tsMar2 := by
  have h1 : collectMonths tsMar1 tsMar2 = [24278] := by
    rw [collectMonths, if_pos (by decide), collectMonths,
      if_neg (by set_option maxRecDepth 4000 in decide)]
    decide
  have h2 : monthsFor tsMar1 tsMar2 = [24278, 24278] := by
    rw [monthsFor, h1]
    decide
  show ([] : List SRow) =
    readRange (some [(24276, [⟨tsJanEnd, [("temp", some 1)]⟩])]) tsMar1 tsMar2
  rw [readRange, h2]
  decide

/-- Claim C6 (amended): only the NetCDF store distinguishes the two
outcomes — `load_range` returns None exactly when the location file does
not exist and otherwise always some (possibly empty) dataset; the Parquet
`read_range` returns the empty list for a missing directory, the same
value it returns when no row falls in the window (see the counterexample
for the coincidence on a concrete directory). -/
theorem c6_amended :
    (∀ (dstart dend : Option TS) (vs : Option (List String)),
      loadRange none dstart dend vs = none) ∧
    (∀ (ds : DS) (dstart dend : Option TS) (vs : Option (List String)),
      (loadRange (some ds) dstart dend vs).isSome = true) ∧
    (∀ (s e : TS), readRange none s e = []) := by
  refine ⟨?_, ?_, ?_⟩
  · intro dstart dend vs
    rfl
  · intro ds dstart dend vs
    rfl
  · intro s e
    rfl

/-! ## Claim C7 -/

/-- Claim C7, counterexample: a single unparsable timestamp does NOT get
skipped — `pd.to_datetime` raises and the whole batch is aborted: with one
bad-timestamp record and one perfectly valid record, `append_records`
raises and stores nothing, where the claim demands the bad record be
skipped and the valid one stored. -/
theorem c7_counterexample :
    appendRecords none
        [⟨TField.bad, []⟩, ⟨TField.good tsJanEnd, [("temp", some 1)]⟩] =
      (some [], Except.error AppendError.badTimestamp) := by
  decide

/-- Claim C7 (amended): records whose time value is absent or None become
NaT and are silently dropped by the month groupby while the rest of the
batch is stored (no per-record skip count is reported beyond the return
value), and a record with a valid timestamp but all-missing field values
is still stored; but a record with an unparsable timestamp aborts the
entire append with an error, and a batch in which no record carries a
time key at all raises instead of returning. -/
theorem c7_amended :
    (∀ (d : Dir) (records : List RawRecord) (fs1 : Files) (n : Nat),
      appendRecords d records = (some fs1, Except.ok n) →
      ∀ r ∈ goodRows records, ∃ p, getFile fs1 (monthIdx r.ts) = some p ∧
        r.ts ∈ p.map (fun x => x.ts)) ∧
    (appendRecords none [⟨TField.good tsJanEnd, [("temp", none)]⟩] =
      (some [(24276, [⟨tsJanEnd, [("temp", none)]⟩])], Except.ok 1)) ∧
    (∀ (d : Dir) (records : List RawRecord),
      (∃ r ∈ records, r.ts = TField.bad) →
      ¬ records.all (fun r => decide (r.ts = TField.absent)) = true →
      (appendRecords d records).2 = Except.error AppendError.badTimestamp) ∧
    (∀ (d : Dir) (records : List RawRecord), records ≠ [] →
      records.all (fun r => decide (r.ts = TField.absent)) = true →
      (appendRecords d records).2 = Except.error AppendError.noTimeColumn) := by
  refine ⟨?_, by decide, ?_, ?_⟩
  · intro d records fs1 n h
    exact appendRecords_stores_good h
  · intro d records hbad hnall
    obtain ⟨r, hr, hre⟩ := hbad
    have h0 : ¬ records.isEmpty = true := by
      cases records with
      | nil => simp at hr
      | cons a l => simp
    have hany : records.any (fun r2 => decide (r2.ts = TField.bad)) = true :=
      List.any_eq_true.2 ⟨r, hr, by simp [hre]⟩
    unfold appendRecords
    rw [if_neg h0, if_neg hnall, if_pos hany]
  · intro d records hne hall
    have h0 : ¬ records.isEmpty = true := by
      cases records with
      | nil => exact absurd rfl hne
      | cons a l => simp
    unfold appendRecords
    rw [if_neg h0, if_pos hall]

/-- Witness for the amended C7: a batch with one None-timestamp record and
one valid record succeeds, drops the former and stores the latter. -/
theorem c7_amended_witness :
    appendRecords none
        [⟨TField.nullv, [("temp", some 3)]⟩,
         ⟨TField.good tsJanEnd, [("temp", some 1)]⟩] =
      (some [(24276, [⟨tsJanEnd, [("temp", some 1)]⟩])], Except.ok 1) ∧
    (∃ p, getFile [(24276, [⟨tsJanEnd, [("temp", some 1)]⟩])]
        (monthIdx tsJanEnd) = some p ∧
      tsJanEnd ∈ p.map (fun x => x.ts)) :=
  ⟨by decide,
    c7_amended.1 none
      [⟨TField.nullv, [("temp", some 3)]⟩,
       ⟨TField.good tsJanEnd, [("temp", some 1)]⟩]
      [(24276, [⟨tsJanEnd, [("temp", some 1)]⟩])] 1 (by decide)
      ⟨tsJanEnd, [("temp", some 1)]⟩ (by decide)⟩

/-! ## Claim C8 -/

/-- Claim C8: for every start ≤ end, the 28-day stepping loop of
`read_range`/`read_recent` (the total function `monthsFor`, whose
well-founded definition is exactly the loop's termination) enumerates
exactly the calendar months intersecting the window: its collected set is
the integer interval of linear month indices from start's month to end's
month inclusive, and that interval is precisely the set of months
containing some timestamp of the window — no month in between is ever
skipped and both endpoint months are included. -/
theorem c8_month_enumeration (s e : TS) (h : tsLe s e) :
    (monthsFor s e).toFinset = Finset.Icc (monthIdx s) (monthIdx e) ∧
    ∀ μ, μ ∈ Finset.Icc (monthIdx s) (monthIdx e) ↔
      ∃ t : TS, tsLe s t ∧ tsLe t e ∧ monthIdx t = μ :=
  ⟨monthsFor_toFinset h, fun μ => mem_Icc_iff_window h μ⟩

/-- Witness for C8 on a concrete window (2023-01-15 .. 2023-03-02). -/
theorem c8_month_enumeration_witness :
    tsLe tsJanMid tsMar2 ∧
    ((monthsFor tsJanMid tsMar2).toFinset =
        Finset.Icc (monthIdx tsJanMid) (monthIdx tsMar2) ∧
      ∀ μ, μ ∈ Finset.Icc (monthIdx tsJanMid) (monthIdx tsMar2) ↔
        ∃ t : TS, tsLe tsJanMid t ∧ tsLe t tsMar2 ∧ monthIdx t = μ) :=
  ⟨by decide, c8_month_enumeration tsJanMid tsMar2 (by decide)⟩

/-! ## Claim C9 -/

/-- Claim C9: under the monthly layout every parsed record of a successful
append is routed to the partition file named by its timestamp's UTC
calendar month — every stored partition holds only rows of its own month,
and each appended record's timestamp is present in the partition of its
month; in particular the batch spanning 2023-01-31T23:00Z and
2023-02-01T01:00Z produces exactly the two partitions 2023-01 and 2023-02,
each holding exactly its own record. -/
theorem c9_monthly_routing :
    (∀ (d : Dir) (records : List RawRecord) (fs1 : Files) (n : Nat),
      FilesMonthOK (d.getD []) →
      appendRecords d records = (some fs1, Except.ok n) →
      FilesMonthOK fs1 ∧
      ∀ r ∈ goodRows records, ∃ p, getFile fs1 (monthIdx r.ts) = some p ∧
        r.ts ∈ p.map (fun x => x.ts)) ∧
    appendRecords none
        [⟨TField.good tsJanEnd, [("temp", some 1)]⟩,
         ⟨TField.good tsFebStart, [("temp", some 2)]⟩] =
      (some [(24276, [⟨tsJanEnd, [("temp", some 1)]⟩]),
             (24277, [⟨tsFebStart, [("temp", some 2)]⟩])], Except.ok 2) := by
  constructor
  · intro d records fs1 n hm h
    exact ⟨appendRecords_monthOK hm h, appendRecords_stores_good h⟩
  · decide

/-- Witness for C9 at a concrete append. -/
theorem c9_monthly_routing_witness :
    (FilesMonthOK ((none : Dir).getD []) ∧
     appendRecords none [⟨TField.good tsJanEnd, [("temp", some 1)]⟩] =
       (some [(24276, [⟨tsJanEnd, [("temp", some 1)]⟩])], Except.ok 1)) ∧
    (FilesMonthOK [(24276, [⟨tsJanEnd, [("temp", some 1)]⟩])] ∧
     ∀ r ∈ goodRows [⟨TField.good tsJanEnd, [("temp", some 1)]⟩],
       ∃ p, getFile [(24276, [⟨tsJanEnd, [("temp", some 1)]⟩])]
           (monthIdx r.ts) = some p ∧
         r.ts ∈ p.map (fun x => x.ts)) :=
  ⟨⟨by decide, by decide⟩,
    c9_monthly_routing.1 none [⟨TField.good tsJanEnd, [("temp", some 1)]⟩]
      [(24276, [⟨tsJanEnd, [("temp", some 1)]⟩])] 1 (by decide) (by decide)⟩

/-! ## Claim C10 -/

/-- Claim C10: `append_records` with an empty record list returns 0 and
leaves the directory completely untouched — the directory value is
returned unchanged (in particular an absent directory stays absent, so the
base directory is not created) and the call performs no filesystem
operation at all, not even the mkdir. -/
theorem c10_empty_append_no_effect :
    ∀ (d : Dir), appendRecords d [] = (d, Except.ok 0) ∧ appendTrace d [] = [] := by
  intro d
  constructor <;> rfl

end AiseedStore
